import Mathlib

/-!
# Lexical scanner of the boolean-expression language (`main.go`)

A shallow embedding of the scanner in `main.go` (`Lexer`, `readChar`, `peekChar`,
`skipWhitespace`, `skipComment`, `readIdentifier`, `NextToken`, `makeError`,
`lookupKeyword`, `getTokenTypeName`, `Analyze` and the result built by
`analyzeHandler`), followed by theorems about it.

Modelling conventions.

* A Go `string` is a sequence of bytes: `List Byte` with `Byte = Fin 256`.
  `Token.Value` is such a byte string; it need not be valid UTF-8.
* Messages produced by `fmt.Sprintf` are Lean `String`s (sequences of code points; the Go
  string is their UTF-8 encoding).
* Go `int` fields (`position`, `line`, ...) are `Nat`; they only count upwards from `0` or `1`
  and never exceed `len(input) + 2` during a scan, so 64-bit overflow does not occur.
* The mutable receiver `*Lexer` becomes explicit state passing.
* Every `for` loop is a structurally recursive function on a fuel argument; the wrappers
  supply `len(input) - readPosition + 2` units, and the unfolding equations proved below
  (`readWhile_loop`, `blockLoop_loop`, `commentLoop_loop`) show that this fuel is never
  exhausted, on any lexer state. The loop of `Analyze` spends one unit for each call of
  `NextToken` and reports `Fault.outOfFuel` when none is left; `Analyze_scan` shows that this
  does not happen on a fresh lexer.
* A slice expression whose bounds are out of range panics in Go; it is modelled by
  `Except Fault`.
-/

set_option maxRecDepth 8000

namespace BoolLex

/-! ## The program -/

/-- A byte of a Go string. -/
abbrev Byte := Fin 256

/-- The type `TokenType` with its thirteen declared constants. -/
inductive TokenType where
  | TokIdentifier
  | TokConstant
  | TokAssignment
  | TokOr
  | TokXor
  | TokAnd
  | TokNot
  | TokLeftParen
  | TokRightParen
  | TokSemicolon
  | TokComment
  | TokError
  | TokEOF
  deriving DecidableEq, Repr

open TokenType

/-- The struct `Token`; its field `Type` is named `Typ` here, `Type` being reserved. -/
structure Token where
  Typ : TokenType
  Value : List Byte
  Line : Nat
  Column : Nat
  TypeStr : String
  deriving DecidableEq, Repr

/-- The struct `Lexer`. -/
structure Lexer where
  input : List Byte
  position : Nat
  readPosition : Nat
  ch : Byte
  line : Nat
  column : Nat
  tokens : List Token
  errors : List String
  deriving DecidableEq, Repr

/-- Run-time failures of the Go program that the model makes explicit. -/
inductive Fault where
  | sliceOutOfRange
  | outOfFuel
  deriving DecidableEq, Repr

/-- The bytes of an ASCII literal (every character of the literal is below 128). -/
def ascii (s : String) : List Byte := s.toList.map (fun c => Fin.ofNat c.toNat)

/-- The conversion `string(b)` of a byte: the UTF-8 encoding of the code point `b`
(one byte below 0x80, two bytes from 0x80 to 0xFF). -/
def byteToString (b : Byte) : List Byte :=
  if b.val < 128 then [b]
  else [Fin.ofNat (192 + b.val / 64), Fin.ofNat (128 + b.val % 64)]

/-- The function `unicode.IsLetter` of the Go standard library on the code points 0..255
(the Latin-1 table of package `unicode`): `A-Z`, `a-z`, U+00AA, U+00B5, U+00BA,
U+00C0..U+00D6, U+00D8..U+00F6, U+00F8..U+00FF. -/
def unicodeIsLetter (b : Byte) : Bool :=
  (65 ≤ b.val && b.val ≤ 90) || (97 ≤ b.val && b.val ≤ 122) ||
  b.val == 170 || b.val == 181 || b.val == 186 ||
  (192 ≤ b.val && b.val ≤ 214) || (216 ≤ b.val && b.val ≤ 246) || (248 ≤ b.val && b.val ≤ 255)

/-- The function `unicode.IsDigit` of the Go standard library on the code points 0..255:
`0-9` only. -/
def unicodeIsDigit (b : Byte) : Bool := 48 ≤ b.val && b.val ≤ 57

/-- The function `isLetter`: `unicode.IsLetter(rune(ch)) || ch == '_'`. -/
def isLetter (ch : Byte) : Bool := unicodeIsLetter ch || ch == 95

/-- The function `isDigit`: `unicode.IsDigit(rune(ch))`. -/
def isDigit (ch : Byte) : Bool := unicodeIsDigit ch

/-- The function `NewLexer` before its call of `readChar`. -/
def initLexer (input : List Byte) : Lexer :=
  { input := input, position := 0, readPosition := 0, ch := 0, line := 1, column := 0,
    tokens := [], errors := [] }

/-- The method `readChar`. -/
def readChar (l : Lexer) : Lexer :=
  let ch : Byte := if l.readPosition ≥ l.input.length then 0 else l.input.getD l.readPosition 0
  if ch = 10 then
    { l with ch := ch, position := l.readPosition, readPosition := l.readPosition + 1,
             line := l.line + 1, column := 0 }
  else
    { l with ch := ch, position := l.readPosition, readPosition := l.readPosition + 1,
             column := l.column + 1 }

/-- The function `NewLexer`. -/
def NewLexer (input : List Byte) : Lexer := readChar (initLexer input)

/-- The method `peekChar`. -/
def peekChar (l : Lexer) : Byte :=
  if l.readPosition ≥ l.input.length then 0 else l.input.getD l.readPosition 0

/-- Fuel that suffices for every loop of the lexer that advances with `readChar`: one unit
for each byte from `position` on, and one for the final test at the end of the input. -/
def loopFuel (l : Lexer) : Nat := l.input.length - l.readPosition + 2

/-- The loop `for p(l.ch) { l.readChar() }`. -/
def readWhile (p : Byte → Bool) : Nat → Lexer → Lexer
  | 0, l => l
  | n + 1, l => if p l.ch then readWhile p n (readChar l) else l

/-- The loop condition of `skipWhitespace`: space, tab, newline, carriage return. -/
def isSpace (ch : Byte) : Bool := ch == 32 || ch == 9 || ch == 10 || ch == 13

/-- The method `skipWhitespace`. -/
def skipWhitespace (l : Lexer) : Lexer := readWhile isSpace (loopFuel l) l

/-- The loop condition of the line-comment loop: `l.ch != '\n' && l.ch != 0`. -/
def inLineComment (ch : Byte) : Bool := ch != 10 && ch != 0

/-- The message appended by `skipComment` for a block comment that is not closed. -/
def unterminatedMsg (line column : Nat) : String :=
  "Незакрытый комментарий (строка " ++ toString line ++ ", столбец " ++ toString column ++ ")"

/-- The block-comment loop of `skipComment` (entered after the two `readChar` calls that
consume the opening marker). -/
def blockLoop : Nat → Lexer → Lexer
  | 0, l => l
  | n + 1, l =>
    if l.ch = 0 then
      { l with errors := l.errors ++ [unterminatedMsg l.line l.column] }
    else if l.ch = 42 ∧ peekChar l = 47 then
      readChar (readChar l)
    else
      blockLoop n (readChar l)

/-- The method `skipComment`: the returned flag and the lexer after the call. -/
def skipComment (l : Lexer) : Bool × Lexer :=
  if l.ch = 47 then
    if peekChar l = 47 then
      let l2 := readChar (readChar l)
      (true, readWhile inLineComment (loopFuel l2) l2)
    else if peekChar l = 42 then
      let l2 := readChar (readChar l)
      (true, blockLoop (loopFuel l2) l2)
    else (false, l)
  else (false, l)

/-- The loop `for l.skipComment() { l.skipWhitespace() }` of `NextToken`. -/
def commentLoop : Nat → Lexer → Lexer
  | 0, l => l
  | n + 1, l =>
    match skipComment l with
    | (true, l1) => commentLoop n (skipWhitespace l1)
    | (false, l1) => l1

/-- The first statements of `NextToken`: `skipWhitespace` and the comment loop. -/
def skipTrivia (l : Lexer) : Lexer :=
  let l1 := skipWhitespace l
  commentLoop (loopFuel l1) l1

/-- The slice expression `s[lo:hi]`, which panics unless `lo <= hi <= len(s)`. -/
def slice (s : List Byte) (lo hi : Nat) : Except Fault (List Byte) :=
  if lo ≤ hi ∧ hi ≤ s.length then .ok ((s.drop lo).take (hi - lo))
  else .error Fault.sliceOutOfRange

/-- The loop condition of `readIdentifier`: `isLetter(l.ch) || isDigit(l.ch)`. -/
def isIdentByte (ch : Byte) : Bool := isLetter ch || isDigit ch

/-- The method `readIdentifier`: the returned string and the lexer after the call. -/
def readIdentifier (l : Lexer) : Except Fault (List Byte × Lexer) :=
  let startPos := l.position
  let l1 := readWhile isIdentByte (loopFuel l) l
  match slice l1.input startPos l1.position with
  | .ok s => .ok (s, l1)
  | .error e => .error e

/-- The function `lookupKeyword`. -/
def lookupKeyword (ident : List Byte) : TokenType :=
  if ident = [111, 114] then TokOr
  else if ident = [120, 111, 114] then TokXor
  else if ident = [97, 110, 100] then TokAnd
  else if ident = [110, 111, 116] then TokNot
  else TokIdentifier

/-- The function `getTokenTypeName`. -/
def getTokenTypeName : TokenType → String
  | TokIdentifier => "Идентификатор"
  | TokConstant => "Константа"
  | TokAssignment => "Присваивание"
  | TokOr => "Ключевое слово (OR)"
  | TokXor => "Ключевое слово (XOR)"
  | TokAnd => "Ключевое слово (AND)"
  | TokNot => "Ключевое слово (NOT)"
  | TokLeftParen => "Левая скобка"
  | TokRightParen => "Правая скобка"
  | TokSemicolon => "Точка с запятой"
  | TokComment => "Комментарий"
  | TokError => "ОШИБКА"
  | TokEOF => "Конец файла"

/-- The text `fmt.Sprintf("%s (строка %d, столбец %d)", msg, line, column)` of `makeError`. -/
def errorMsg (msg : String) (line column : Nat) : String :=
  msg ++ " (строка " ++ toString line ++ ", столбец " ++ toString column ++ ")"

/-- The method `makeError`: the returned token and the lexer after the call. -/
def makeError (l : Lexer) (msg : String) : Token × Lexer :=
  ({ Typ := TokError, Value := byteToString l.ch, Line := l.line, Column := l.column,
     TypeStr := "ОШИБКА" },
   { l with errors := l.errors ++ [errorMsg msg l.line l.column] })

/-- The text `fmt.Sprintf("Неожиданный символ '%c'", ch)`: the verb `%c` prints the code
point `ch`. -/
def unexpectedMsg (ch : Byte) : String :=
  "Неожиданный символ '" ++ String.singleton (Char.ofNat ch.val) ++ "'"

/-- The common exit of `NextToken`: `l.readChar()`, then `tok.TypStr` is set. -/
def finish (tok : Token) (l : Lexer) : Except Fault (Token × Lexer) :=
  .ok ({ tok with TypeStr := getTokenTypeName tok.Typ }, readChar l)

/-- The `switch` of `NextToken`, executed after trivia has been skipped. -/
def classify (l : Lexer) : Except Fault (Token × Lexer) :=
  let line := l.line
  let column := l.column
  if l.ch = 58 then
    if peekChar l = 61 then
      let ch := l.ch
      let l1 := readChar l
      finish { Typ := TokAssignment, Value := byteToString ch ++ byteToString l1.ch,
               Line := line, Column := column, TypeStr := "" } l1
    else
      let (tok, l1) := makeError l "Неожиданный символ ':'"
      finish tok l1
  else if l.ch = 40 then
    finish { Typ := TokLeftParen, Value := [40], Line := line, Column := column,
             TypeStr := "" } l
  else if l.ch = 41 then
    finish { Typ := TokRightParen, Value := [41], Line := line, Column := column,
             TypeStr := "" } l
  else if l.ch = 59 then
    finish { Typ := TokSemicolon, Value := [59], Line := line, Column := column,
             TypeStr := "" } l
  else if l.ch = 48 then
    finish { Typ := TokConstant, Value := [48], Line := line, Column := column,
             TypeStr := "" } l
  else if l.ch = 49 then
    finish { Typ := TokConstant, Value := [49], Line := line, Column := column,
             TypeStr := "" } l
  else if l.ch = 0 then
    finish { Typ := TokEOF, Value := [], Line := line, Column := column, TypeStr := "" } l
  else if isLetter l.ch then
    match readIdentifier l with
    | .ok (identifier, l1) =>
      let tokType := lookupKeyword identifier
      .ok ({ Typ := tokType, Value := identifier, Line := line, Column := column,
             TypeStr := getTokenTypeName tokType }, l1)
    | .error e => .error e
  else
    let (tok, l1) := makeError l (unexpectedMsg l.ch)
    finish tok l1

/-- The method `NextToken`: the returned token and the lexer after the call. -/
def NextToken (l : Lexer) : Except Fault (Token × Lexer) := classify (skipTrivia l)

/-- The loop of `Analyze`, one unit of fuel for each call of `NextToken`. -/
def analyzeLoop : Nat → Lexer → Except Fault Lexer
  | 0, _ => .error Fault.outOfFuel
  | n + 1, l =>
    match NextToken l with
    | .ok (tok, l1) =>
      if tok.Typ ≠ TokEOF then analyzeLoop n { l1 with tokens := l1.tokens ++ [tok] }
      else .ok l1
    | .error e => .error e

/-- The method `Analyze`. -/
def Analyze (l : Lexer) : Except Fault Lexer := analyzeLoop (loopFuel l) l

/-- The struct `AnalysisResult`. -/
structure AnalysisResult where
  Tokens : List Token
  Errors : List String
  HasErrors : Bool
  InputText : List Byte
  TokenCount : Nat
  SuccessCount : Nat
  ErrorCount : Nat
  deriving DecidableEq, Repr

/-- The value that `analyzeHandler` builds from the form value `code` and hands to the
template renderer. -/
def analyzeResult (inputText : List Byte) : Except Fault AnalysisResult :=
  if inputText = [] then
    .ok { Tokens := [], Errors := ["Введите текст для анализа"], HasErrors := true,
          InputText := [], TokenCount := 0, SuccessCount := 0, ErrorCount := 0 }
  else
    match Analyze (NewLexer inputText) with
    | .ok lexer =>
      .ok { Tokens := lexer.tokens, Errors := lexer.errors,
            HasErrors := decide (lexer.errors.length > 0), InputText := inputText,
            TokenCount := lexer.tokens.length,
            SuccessCount := (lexer.tokens.filter (fun tok => tok.Typ ≠ TokError)).length,
            ErrorCount := (lexer.tokens.filter (fun tok => tok.Typ = TokError)).length }
    | .error e => .error e

/-! ## Vocabulary of the specification and of the proofs -/

/-- The unread part of the input: the bytes from `position` on. -/
def rest (l : Lexer) : List Byte := l.input.drop l.position

/-- The cursor is consistent: `readPosition` is one past `position` and `ch` is the byte
at `position`, or `0` past the end. Holds after every `readChar`. -/
def Synced (l : Lexer) : Prop :=
  l.readPosition = l.position + 1 ∧ l.ch = (rest l).headD 0

/-- The lexer `b` is the lexer `a` after reading exactly the bytes `w`: the same cursor as
after `w.length` calls of `readChar` (only the error list may differ), with `w` gone from
the unread input. -/
structure Reads (a b : Lexer) (w : List Byte) : Prop where
  cursor : { readChar^[w.length] a with errors := b.errors } = b
  split : rest a = w ++ rest b
  synced : Synced b

/-- The byte string `s` does not contain the closing marker `*/`. -/
def NoClose (s : List Byte) : Prop := ¬ ([42, 47] : List Byte) <:+: s

/-- A possibly empty run of whitespace bytes (space, tab, newline, carriage return), line
comments (`//` and a body without newline) and closed block comments (`/*`, a body without
`*/`, and `*/`). -/
inductive Trivia : List Byte → Prop where
  | nil : Trivia []
  | space {c : Byte} {t : List Byte} : isSpace c = true → Trivia t → Trivia (c :: t)
  | line {s t : List Byte} : (∀ c ∈ s, c ≠ 10) → Trivia t → Trivia (47 :: 47 :: (s ++ t))
  | block {s t : List Byte} : NoClose s → Trivia t →
      Trivia (47 :: 42 :: (s ++ 42 :: 47 :: t))

/-- A run of trivia followed by a block comment that is never closed. -/
def OpenTrivia (t : List Byte) : Prop :=
  ∃ t1 s, Trivia t1 ∧ NoClose s ∧ t = t1 ++ 47 :: 42 :: s

/-- The trivia after the last token: a run of trivia whose last comment may be a block
comment that is never closed. -/
def FinalTrivia (t : List Byte) : Prop := Trivia t ∨ OpenTrivia t

/-- The lexer `b` is the lexer `a` after skipping trivia: either a run of trivia was read
and the error list is unchanged, or a run of trivia ending in an open block comment was
read up to a zero byte and the unterminated-comment message was appended. -/
def TriviaRun (a b : Lexer) : Prop :=
  (∃ w, Trivia w ∧ Reads a b w ∧ b.errors = a.errors) ∨
  (∃ w, OpenTrivia w ∧ Reads a b w ∧ b.ch = 0 ∧
    b.errors = a.errors ++ [unterminatedMsg b.line b.column])

/-- The end-of-input token that `NextToken` returns at line `line`, column `column`. -/
def eofToken (line column : Nat) : Token :=
  { Typ := TokEOF, Value := [], Line := line, Column := column,
    TypeStr := getTokenTypeName TokEOF }

/-- The `switch` of `NextToken` produced the token `tok` from the lexer `l`, reading the
bytes `w` and leaving the lexer `l2`. -/
structure Lexed (l : Lexer) (tok : Token) (l2 : Lexer) (w : List Byte) : Prop where
  reads : Reads l l2 w
  ch_ne : l.ch ≠ 0
  nonempty : w ≠ []
  notEOF : tok.Typ ≠ TokEOF
  line : tok.Line = l.line
  column : tok.Column = l.column
  typeStr : tok.TypeStr = getTokenTypeName tok.Typ
  kind :
    (tok.Typ = TokError ∧ tok.Value = byteToString l.ch ∧ w = [l.ch] ∧ isLetter l.ch = false ∧
      l2.errors = l.errors ++ [errorMsg (unexpectedMsg l.ch) l.line l.column]) ∨
    (isLetter l.ch = true ∧ tok.Typ = lookupKeyword tok.Value ∧ tok.Value = w ∧
      w = (rest l).takeWhile isIdentByte ∧ l2.errors = l.errors) ∨
    (isLetter l.ch = false ∧ tok.Value = w ∧ l2.errors = l.errors ∧
      (tok.Typ = TokConstant ∨ tok.Typ = TokAssignment ∨ tok.Typ = TokLeftParen ∨
        tok.Typ = TokRightParen ∨ tok.Typ = TokSemicolon))

/-- A run of the loop of `Analyze` from the lexer `l` to the lexer it returns: each call of
`NextToken` skips trivia and then either meets a zero byte, returns the end-of-input token
and ends the loop, or returns a token that is stored before the loop goes on. -/
inductive Scan : Lexer → Lexer → Prop where
  | eof {l : Lexer} : Synced l → TriviaRun l (skipTrivia l) → (skipTrivia l).ch = 0 →
      NextToken l = .ok (eofToken (skipTrivia l).line (skipTrivia l).column,
        readChar (skipTrivia l)) →
      Scan l (readChar (skipTrivia l))
  | tok {l l2 l3 : Lexer} {tok : Token} {w : List Byte} : Synced l →
      TriviaRun l (skipTrivia l) → Lexed (skipTrivia l) tok l2 w →
      NextToken l = .ok (tok, l2) →
      Scan { l2 with tokens := l2.tokens ++ [tok] } l3 → Scan l l3

/-- The lexer `l` with its stored tokens replaced by `ts`. -/
def setTokens (ts : List Token) (l : Lexer) : Lexer := { l with tokens := ts }

/-- The result of a call with the stored tokens replaced by `ts`. -/
def withTokens (ts : List Token) :
    Except Fault (Token × Lexer) → Except Fault (Token × Lexer)
  | .ok (tok, l) => .ok (tok, setTokens ts l)
  | .error e => .error e

/-- The input `input` splits, in order, as `t0 ++ v1 ++ t1 ++ ... ++ vn ++ tn` where
`v1 .. vn` are the given token texts, `t0 .. t(n-1)` are runs of trivia and `tn` is a run of
trivia whose last comment may be a block comment that is never closed. -/
inductive Splits : List (List Byte) → List Byte → Prop where
  | done {t : List Byte} : FinalTrivia t → Splits [] t
  | tok {t v r : List Byte} {vs : List (List Byte)} : Trivia t → Splits vs r →
      Splits (v :: vs) (t ++ v ++ r)

/-- The kinds that the identifier rule of `NextToken` can return. -/
def identRuleKind (k : TokenType) : Prop :=
  k = TokIdentifier ∨ k = TokOr ∨ k = TokXor ∨ k = TokAnd ∨ k = TokNot

/-- The kinds that the other rules of `NextToken` can return for a stored token. -/
def otherRuleKind (k : TokenType) : Prop :=
  k = TokConstant ∨ k = TokAssignment ∨ k = TokLeftParen ∨ k = TokRightParen ∨
    k = TokSemicolon ∨ k = TokError

/-- The results of the first `n` successive calls of `NextToken` from the lexer `l`, in
order (up to a failing call), with nothing stored between the calls. -/
def nextTokens : Nat → Lexer → List Token
  | 0, _ => []
  | n + 1, l =>
    match NextToken l with
    | .ok (tok, l1) => tok :: nextTokens n l1
    | .error _ => []

/-- The index expression `s[i]`: `none` is the run-time panic of an index out of range. -/
def index (s : List Byte) (i : Nat) : Option Byte := s[i]?

/-- The method `readChar` with its index expression `l.input[l.readPosition]` checked:
`none` is a run-time panic. -/
def readCharChecked (l : Lexer) : Option Lexer :=
  match (if l.readPosition ≥ l.input.length then some (0 : Byte)
      else index l.input l.readPosition) with
  | none => none
  | some ch =>
    if ch = 10 then
      some { l with ch := ch, position := l.readPosition, readPosition := l.readPosition + 1,
                    line := l.line + 1, column := 0 }
    else
      some { l with ch := ch, position := l.readPosition, readPosition := l.readPosition + 1,
                    column := l.column + 1 }

/-- The method `peekChar` with its index expression `l.input[l.readPosition]` checked:
`none` is a run-time panic. -/
def peekCharChecked (l : Lexer) : Option Byte :=
  if l.readPosition ≥ l.input.length then some 0 else index l.input l.readPosition

/-- The line of the byte at offset `n` of the input, as the claim states it: one more than
the number of newline bytes before offset `n`. -/
def lineAt (input : List Byte) (n : Nat) : Nat := 1 + (input.take n).count 10

/-- The column of the byte at offset `n` of the input, as the claim states it: one more than
the number of bytes between the last newline before offset `n` (or the start of the input)
and offset `n`. -/
def columnAt (input : List Byte) (n : Nat) : Nat :=
  1 + ((input.take n).reverse.takeWhile (fun b => b != 10)).length

/-- The number of stored tokens of kind Error: the `ErrorCount` of `analyzeHandler`. -/
def errorCount (toks : List Token) : Nat := (toks.filter (fun t => t.Typ = TokError)).length

/-- The token `t` stands before the token `u` in the source: its (line, column) is less in
lexicographic order. -/
def before (t u : Token) : Prop :=
  t.Line < u.Line ∨ (t.Line = u.Line ∧ t.Column < u.Column)

/-- The cursor of `a` is at or before the cursor of `b`, by (line, column). -/
def cursorLe (a b : Lexer) : Prop :=
  a.line < b.line ∨ (a.line = b.line ∧ a.column ≤ b.column)

/-- The cursor of `a` is before the cursor of `b`, by (line, column). -/
def cursorLt (a b : Lexer) : Prop :=
  a.line < b.line ∨ (a.line = b.line ∧ a.column < b.column)

/-- Lines are counted from 1, and the column is at least 1 except on a newline. -/
def LineColOK (l : Lexer) : Prop := 1 ≤ l.line ∧ (l.ch ≠ 10 → 1 ≤ l.column)

/-- The first `n` successive calls of `NextToken` from the lexer `l`, each with the token it
returns, the offset of the cursor when the `switch` starts (after the trivia) and the offset
of the cursor when the call returns: the span of input consumed for the token. -/
def tokenSpans : Nat → Lexer → List (Token × Nat × Nat)
  | 0, _ => []
  | n + 1, l =>
    match NextToken l with
    | .ok (tok, l1) => (tok, (skipTrivia l).position, l1.position) :: tokenSpans n l1
    | .error _ => []

/-! ## The cursor -/

@[simp] theorem readChar_input (l : Lexer) : (readChar l).input = l.input := by
  unfold readChar; dsimp only; split_ifs <;> rfl

@[simp] theorem readChar_tokens (l : Lexer) : (readChar l).tokens = l.tokens := by
  unfold readChar; dsimp only; split_ifs <;> rfl

@[simp] theorem readChar_errors (l : Lexer) : (readChar l).errors = l.errors := by
  unfold readChar; dsimp only; split_ifs <;> rfl

@[simp] theorem readChar_position (l : Lexer) : (readChar l).position = l.readPosition := by
  unfold readChar; dsimp only; split_ifs <;> rfl

@[simp] theorem readChar_readPosition (l : Lexer) :
    (readChar l).readPosition = l.readPosition + 1 := by
  unfold readChar; dsimp only; split_ifs <;> rfl

theorem getD_eq_headD_drop (s : List Byte) (i : Nat) :
    (if i ≥ s.length then (0 : Byte) else s.getD i 0) = (s.drop i).headD 0 := by
  induction s generalizing i with
  | nil => simp
  | cons a s ih =>
    cases i with
    | zero => simp
    | succ i =>
      have := ih i
      simp only [List.length_cons, ge_iff_le, Nat.add_le_add_iff_right, List.getD_cons_succ,
        List.drop_succ_cons] at this ⊢
      exact this

theorem peekChar_eq (l : Lexer) : peekChar l = (l.input.drop l.readPosition).headD 0 := by
  unfold peekChar; exact getD_eq_headD_drop _ _

theorem readChar_ch (l : Lexer) : (readChar l).ch = (l.input.drop l.readPosition).headD 0 := by
  rw [← getD_eq_headD_drop]
  unfold readChar; dsimp only; split_ifs <;> rfl

theorem peekChar_eq_readChar_ch (l : Lexer) : peekChar l = (readChar l).ch := by
  rw [peekChar_eq, readChar_ch]

theorem synced_readChar (l : Lexer) : Synced (readChar l) := by
  refine ⟨by simp, ?_⟩
  rw [readChar_ch]; simp [rest]

theorem synced_NewLexer (input : List Byte) : Synced (NewLexer input) := synced_readChar _

@[simp] theorem NewLexer_input (input : List Byte) : (NewLexer input).input = input := by
  simp [NewLexer, initLexer]

@[simp] theorem NewLexer_tokens (input : List Byte) : (NewLexer input).tokens = [] := by
  simp [NewLexer, initLexer]

@[simp] theorem NewLexer_errors (input : List Byte) : (NewLexer input).errors = [] := by
  simp [NewLexer, initLexer]

@[simp] theorem NewLexer_position (input : List Byte) : (NewLexer input).position = 0 := by
  simp [NewLexer, initLexer]

@[simp] theorem rest_NewLexer (input : List Byte) : rest (NewLexer input) = input := by
  simp [rest]

theorem rest_readChar {l : Lexer} (h : Synced l) : rest (readChar l) = (rest l).tail := by
  simp [rest, h.1]

theorem rest_length (l : Lexer) : (rest l).length = l.input.length - l.position := by
  simp [rest]

theorem Synced.ch_nil {l : Lexer} (h : Synced l) (hr : rest l = []) : l.ch = 0 := by
  rw [h.2, hr]; rfl

theorem Synced.ch_cons {l : Lexer} (h : Synced l) {c : Byte} {r : List Byte}
    (hr : rest l = c :: r) : l.ch = c := by
  rw [h.2, hr]; rfl

theorem Synced.rest_cons {l : Lexer} (h : Synced l) {c : Byte} {r : List Byte}
    (hr : rest l = c :: r) : rest (readChar l) = r := by
  rw [rest_readChar h, hr]; rfl

theorem Synced.rest_nil {l : Lexer} (h : Synced l) (hr : rest l = []) :
    rest (readChar l) = [] := by
  rw [rest_readChar h, hr]; rfl

theorem Synced.peek {l : Lexer} (h : Synced l) : peekChar l = (rest l).tail.headD 0 := by
  rw [peekChar_eq_readChar_ch, (synced_readChar l).2, rest_readChar h]

theorem Synced.rest_of_ch_ne {l : Lexer} (h : Synced l) (hc : l.ch ≠ 0) :
    rest l = l.ch :: rest (readChar l) := by
  rw [rest_readChar h]
  cases hr : rest l with
  | nil => exact absurd (h.ch_nil hr) hc
  | cons c r => rw [h.ch_cons hr]; rfl

/-! ## Reading a run of bytes -/

theorem readChar_setErrors (l : Lexer) (e : List String) :
    readChar { l with errors := e } = { readChar l with errors := e } := by
  unfold readChar; dsimp only; split_ifs <;> rfl

theorem readChar_setTokens (l : Lexer) (ts : List Token) :
    readChar { l with tokens := ts } = { readChar l with tokens := ts } := by
  unfold readChar; dsimp only; split_ifs <;> rfl

theorem iterate_readChar_setErrors (k : Nat) (l : Lexer) (e : List String) :
    readChar^[k] { l with errors := e } = { readChar^[k] l with errors := e } := by
  induction k generalizing l with
  | zero => rfl
  | succ k ih => rw [Function.iterate_succ_apply, readChar_setErrors, ih,
      Function.iterate_succ_apply]

@[simp] theorem iterate_readChar_input (k : Nat) (l : Lexer) :
    (readChar^[k] l).input = l.input := by
  induction k generalizing l with
  | zero => rfl
  | succ k ih => rw [Function.iterate_succ_apply, ih, readChar_input]

@[simp] theorem iterate_readChar_tokens (k : Nat) (l : Lexer) :
    (readChar^[k] l).tokens = l.tokens := by
  induction k generalizing l with
  | zero => rfl
  | succ k ih => rw [Function.iterate_succ_apply, ih, readChar_tokens]

@[simp] theorem iterate_readChar_errors (k : Nat) (l : Lexer) :
    (readChar^[k] l).errors = l.errors := by
  induction k generalizing l with
  | zero => rfl
  | succ k ih => rw [Function.iterate_succ_apply, ih, readChar_errors]

theorem iterate_readChar_readPosition (k : Nat) (l : Lexer) :
    (readChar^[k] l).readPosition = l.readPosition + k := by
  induction k generalizing l with
  | zero => rfl
  | succ k ih => rw [Function.iterate_succ_apply, ih, readChar_readPosition]; omega

theorem Reads.nil {l : Lexer} (h : Synced l) : Reads l l [] :=
  ⟨rfl, rfl, h⟩

theorem Reads.setErrors {a b : Lexer} {w : List Byte} (h : Reads a b w) (e : List String) :
    Reads a { b with errors := e } w := by
  refine ⟨?_, h.split, h.synced⟩
  have := h.cursor
  rw [← this]

theorem Reads.one {l : Lexer} (h : Synced l) (hc : l.ch ≠ 0) : Reads l (readChar l) [l.ch] :=
  ⟨rfl, h.rest_of_ch_ne hc, synced_readChar l⟩

theorem Reads.trans {a b c : Lexer} {v w : List Byte} (h1 : Reads a b v) (h2 : Reads b c w) :
    Reads a c (v ++ w) := by
  refine ⟨?_, ?_, h2.synced⟩
  · have e1 := h1.cursor
    have e2 := h2.cursor
    rw [← e1, iterate_readChar_setErrors] at e2
    rw [List.length_append, Nat.add_comm, Function.iterate_add_apply]
    exact e2
  · rw [h1.split, h2.split, List.append_assoc]

theorem Reads.input_eq {a b : Lexer} {w : List Byte} (h : Reads a b w) : b.input = a.input := by
  rw [← h.cursor]; simp

theorem Reads.tokens_eq {a b : Lexer} {w : List Byte} (h : Reads a b w) : b.tokens = a.tokens := by
  rw [← h.cursor]; simp

theorem Reads.readPosition {a b : Lexer} {w : List Byte} (h : Reads a b w) :
    b.readPosition = a.readPosition + w.length := by
  rw [← h.cursor]; simp [iterate_readChar_readPosition]

theorem Reads.rest_length_eq {a b : Lexer} {w : List Byte} (h : Reads a b w) :
    (rest a).length = w.length + (rest b).length := by
  rw [h.split, List.length_append]

theorem readWhile_reads (p : Byte → Bool) (hp : p 0 = false) :
    ∀ (n : Nat) (l : Lexer), Synced l → (rest l).length ≤ n →
      Reads l (readWhile p n l) ((rest l).takeWhile p) ∧
      (readWhile p n l).errors = l.errors ∧ p (readWhile p n l).ch = false := by
  intro n
  induction n with
  | zero =>
    intro l hs hn
    have hr : rest l = [] := List.eq_nil_of_length_eq_zero (Nat.le_zero.mp hn)
    have hw : readWhile p 0 l = l := rfl
    rw [hw, hr, List.takeWhile_nil]
    exact ⟨Reads.nil hs, rfl, by rw [hs.ch_nil hr]; exact hp⟩
  | succ n ih =>
    intro l hs hn
    cases hr : rest l with
    | nil =>
      have hc : p l.ch = false := by rw [hs.ch_nil hr]; exact hp
      have hw : readWhile p (n + 1) l = l := by simp [readWhile, hc]
      rw [hw, List.takeWhile_nil]
      exact ⟨Reads.nil hs, rfl, hc⟩
    | cons c r =>
      have hch : l.ch = c := hs.ch_cons hr
      by_cases hc : p c = true
      · have hne : l.ch ≠ 0 := by
          intro h0; rw [hch] at h0; rw [h0, hp] at hc; exact Bool.false_ne_true hc
        have hr1 : rest (readChar l) = r := hs.rest_cons hr
        have hlen : (rest (readChar l)).length ≤ n := by
          rw [hr1]; rw [hr] at hn; simpa using hn
        obtain ⟨h1, h2, h3⟩ := ih (readChar l) (synced_readChar l) hlen
        have hw : readWhile p (n + 1) l = readWhile p n (readChar l) := by
          simp [readWhile, hch, hc]
        rw [hw, List.takeWhile_cons_of_pos hc]
        refine ⟨?_, by rw [h2, readChar_errors], h3⟩
        have := (Reads.one hs hne).trans h1
        rw [hch, hr1] at this
        exact this
      · have hc2 : p l.ch = false := by rw [hch]; simpa using hc
        have hw : readWhile p (n + 1) l = l := by simp [readWhile, hc2]
        rw [hw, List.takeWhile_cons_of_neg hc]
        exact ⟨Reads.nil hs, rfl, hc2⟩

theorem rest_length_le_fuel {l : Lexer} (h : Synced l) : (rest l).length + 1 ≤ loopFuel l := by
  rw [rest_length, loopFuel, h.1]; omega

theorem rest_readChar_length (l : Lexer) : (rest (readChar l)).length + 2 ≤ loopFuel l := by
  rw [rest_length, loopFuel]; simp

theorem rest_readChar_length_fuel (l : Lexer) :
    (rest (readChar l)).length + 1 ≤ loopFuel (readChar l) :=
  rest_length_le_fuel (synced_readChar l)

/-- The loop `for p(l.ch) { l.readChar() }` never runs out of fuel: on every lexer state the
wrapper satisfies the unfolding equation of the loop. -/
theorem readWhile_loop (p : Byte → Bool) (hp : p 0 = false) (l : Lexer) :
    readWhile p (loopFuel l) l =
      if p l.ch then readWhile p (loopFuel (readChar l)) (readChar l) else l := by
  have hf : loopFuel l = (loopFuel l - 1) + 1 := by unfold loopFuel; omega
  rw [hf, readWhile]
  split_ifs with hc
  · have h1 := readWhile_reads p hp (loopFuel l - 1) (readChar l) (synced_readChar l)
      (by have := rest_readChar_length l; omega)
    have h2 := readWhile_reads p hp (loopFuel (readChar l)) (readChar l) (synced_readChar l)
      (by have := rest_readChar_length_fuel l; omega)
    rw [← h1.1.cursor, ← h2.1.cursor, h1.2.1, h2.2.1]
  · rfl

/-! ## Block comments -/

theorem noClose_nil : NoClose [] := by
  unfold NoClose; simp

theorem close_infix_cons (c : Byte) (s : List Byte) :
    ([42, 47] : List Byte) <:+: c :: s ↔
      (c = 42 ∧ s.headD 0 = 47) ∨ ([42, 47] : List Byte) <:+: s := by
  rw [List.infix_cons_iff]
  refine or_congr ?_ Iff.rfl
  cases s with
  | nil => simp
  | cons d s => simp [eq_comm]

theorem noClose_cons {c : Byte} {s : List Byte} (h1 : ¬ (c = 42 ∧ s.headD 0 = 47))
    (h2 : NoClose s) : NoClose (c :: s) := by
  unfold NoClose at *
  rw [close_infix_cons]
  exact fun h => h.elim h1 h2

theorem NoClose.tail {c : Byte} {s : List Byte} (h : NoClose (c :: s)) : NoClose s := by
  unfold NoClose at *
  rw [close_infix_cons] at h
  exact fun h2 => h (Or.inr h2)

theorem NoClose.head {c : Byte} {s : List Byte} (h : NoClose (c :: s)) :
    ¬ (c = 42 ∧ s.headD 0 = 47) := by
  unfold NoClose at h
  rw [close_infix_cons] at h
  exact fun h2 => h (Or.inl h2)

theorem headD_append_of_headD_ne {s t : List Byte} {b : Byte} (h : (s ++ t).headD 0 ≠ b)
    (hb : b ≠ 0) : s.headD 0 ≠ b := by
  cases s with
  | nil => exact fun h0 => hb h0.symm
  | cons d s => simpa using h

/-- What one run of the block-comment loop does on a consistent cursor. Either it reads a
body `s` without `*/` and without a zero byte followed by the closing marker, or it reads
such a body up to a zero byte (a NUL or the end of the input) and appends the message. -/
theorem blockLoop_reads :
    ∀ (n : Nat) (l : Lexer), Synced l → (rest l).length + 1 ≤ n →
      (∃ s, NoClose s ∧ (0 : Byte) ∉ s ∧ Reads l (blockLoop n l) (s ++ [42, 47]) ∧
        (blockLoop n l).errors = l.errors) ∨
      (∃ s, NoClose s ∧ (0 : Byte) ∉ s ∧ Reads l (blockLoop n l) s ∧ (blockLoop n l).ch = 0 ∧
        (blockLoop n l).errors =
          l.errors ++ [unterminatedMsg (blockLoop n l).line (blockLoop n l).column]) := by
  intro n
  induction n with
  | zero => intro l _ hn; omega
  | succ n ih =>
    intro l hs hn
    by_cases h0 : l.ch = 0
    · right
      have hw : blockLoop (n + 1) l =
          { l with errors := l.errors ++ [unterminatedMsg l.line l.column] } := by
        simp [blockLoop, h0]
      rw [hw]
      exact ⟨[], noClose_nil, by simp, (Reads.nil hs).setErrors _, h0, rfl⟩
    · have hr := hs.rest_of_ch_ne h0
      by_cases hcl : l.ch = 42 ∧ peekChar l = 47
      · left
        have hw : blockLoop (n + 1) l = readChar (readChar l) := by
          simp [blockLoop, h0, hcl]
        rw [hw]
        refine ⟨[], noClose_nil, by simp, ?_, by simp⟩
        have h47 : (readChar l).ch ≠ 0 := by
          rw [← peekChar_eq_readChar_ch, hcl.2]; decide
        have := (Reads.one hs h0).trans (Reads.one (synced_readChar l) h47)
        rw [← peekChar_eq_readChar_ch, hcl.1, hcl.2] at this
        exact this
      · have hw : blockLoop (n + 1) l = blockLoop n (readChar l) := by
          simp only [blockLoop, h0, hcl, if_false]
        have hlen : (rest (readChar l)).length + 1 ≤ n := by
          rw [hr] at hn; simpa using hn
        have hpk : ¬ (l.ch = 42 ∧ (rest (readChar l)).headD 0 = 47) := by
          rw [← (synced_readChar l).2, ← peekChar_eq_readChar_ch]; exact hcl
        rw [hw]
        rcases ih (readChar l) (synced_readChar l) hlen with
          ⟨s, hs1, hs2, hs3, hs4⟩ | ⟨s, hs1, hs2, hs3, hs4, hs5⟩
        · left
          refine ⟨l.ch :: s, ?_, ?_, ?_, by rw [hs4, readChar_errors]⟩
          · refine noClose_cons (fun hh => hpk ⟨hh.1, ?_⟩) hs1
            rw [hs3.split]
            cases s with
            | nil => exact absurd hh.2 (by decide)
            | cons d s => exact hh.2
          · simp only [List.mem_cons, not_or]
            exact ⟨fun h => h0 h.symm, hs2⟩
          · exact (Reads.one hs h0).trans hs3
        · right
          refine ⟨l.ch :: s, ?_, ?_, ?_, hs4, by rw [hs5, readChar_errors]⟩
          · refine noClose_cons (fun hh => hpk ⟨hh.1, ?_⟩) hs1
            rw [hs3.split]
            cases s with
            | nil => exact absurd hh.2 (by decide)
            | cons d s => exact hh.2
          · simp only [List.mem_cons, not_or]
            exact ⟨fun h => h0 h.symm, hs2⟩
          · exact (Reads.one hs h0).trans hs3

theorem blockLoop_fuel :
    ∀ (n m : Nat) (l : Lexer), Synced l → (rest l).length + 1 ≤ n → (rest l).length + 1 ≤ m →
      blockLoop n l = blockLoop m l := by
  intro n
  induction n with
  | zero => intro m l _ hn; omega
  | succ n ih =>
    intro m l hs hn hm
    cases m with
    | zero => omega
    | succ m =>
      simp only [blockLoop]
      split_ifs with h0 hcl
      · rfl
      · rfl
      · have hr := hs.rest_of_ch_ne h0
        rw [hr] at hn hm
        simp only [List.length_cons, Nat.add_le_add_iff_right] at hn hm
        exact ih m (readChar l) (synced_readChar l) hn hm

/-- The block-comment loop never runs out of fuel: on every lexer state the wrapper
satisfies the unfolding equation of the loop. -/
theorem blockLoop_loop (l : Lexer) :
    blockLoop (loopFuel l) l =
      if l.ch = 0 then { l with errors := l.errors ++ [unterminatedMsg l.line l.column] }
      else if l.ch = 42 ∧ peekChar l = 47 then readChar (readChar l)
      else blockLoop (loopFuel (readChar l)) (readChar l) := by
  have hf : loopFuel l = (loopFuel l - 1) + 1 := by unfold loopFuel; omega
  rw [hf, blockLoop]
  split_ifs with h0 hcl
  · rfl
  · rfl
  · exact blockLoop_fuel _ _ _ (synced_readChar l)
      (by have := rest_readChar_length l; omega)
      (by have := rest_readChar_length_fuel l; omega)

/-! ## Trivia -/

theorem Trivia.append {a b : List Byte} (ha : Trivia a) (hb : Trivia b) : Trivia (a ++ b) := by
  induction ha with
  | nil => exact hb
  | space hc _ ih => exact Trivia.space hc ih
  | line hs _ ih =>
    rename_i s t
    have := Trivia.line hs ih
    simpa [List.append_assoc] using this
  | block hs _ ih =>
    rename_i s t
    have := Trivia.block hs ih
    simpa [List.append_assoc] using this

theorem Trivia.of_spaces {w : List Byte} (h : ∀ c ∈ w, isSpace c = true) : Trivia w := by
  induction w with
  | nil => exact Trivia.nil
  | cons c w ih =>
    exact Trivia.space (h c (List.mem_cons_self _ _))
      (ih (fun d hd => h d (List.mem_cons_of_mem _ hd)))

theorem OpenTrivia.prepend {a b : List Byte} (ha : Trivia a) (hb : OpenTrivia b) :
    OpenTrivia (a ++ b) := by
  obtain ⟨t1, s, h1, h2, h3⟩ := hb
  exact ⟨a ++ t1, s, ha.append h1, h2, by rw [h3, List.append_assoc]⟩

theorem readWhile_of_not (p : Byte → Bool) (n : Nat) {l : Lexer} (h : p l.ch = false) :
    readWhile p n l = l := by
  cases n with
  | zero => rfl
  | succ n => simp [readWhile, h]

theorem skipWhitespace_reads {l : Lexer} (h : Synced l) :
    Reads l (skipWhitespace l) ((rest l).takeWhile isSpace) ∧
      (skipWhitespace l).errors = l.errors ∧ isSpace (skipWhitespace l).ch = false :=
  readWhile_reads isSpace (by decide) _ l h (by have := rest_length_le_fuel h; omega)

theorem skipWhitespace_trivia {l : Lexer} (h : Synced l) :
    ∃ w, Trivia w ∧ Reads l (skipWhitespace l) w := by
  refine ⟨_, Trivia.of_spaces ?_, (skipWhitespace_reads h).1⟩
  intro c hc
  exact (List.mem_takeWhile_imp hc)

/-- The two readings of the opening marker of a comment. -/
theorem reads_two {l : Lexer} (h : Synced l) {a b : Byte} (ha : l.ch = a) (hb : peekChar l = b)
    (ha0 : a ≠ 0) (hb0 : b ≠ 0) : Reads l (readChar (readChar l)) [a, b] := by
  have h1 : l.ch ≠ 0 := by rw [ha]; exact ha0
  have h2 : (readChar l).ch ≠ 0 := by rw [← peekChar_eq_readChar_ch, hb]; exact hb0
  have := (Reads.one h h1).trans (Reads.one (synced_readChar l) h2)
  rw [← peekChar_eq_readChar_ch, ha, hb] at this
  exact this

/-- What `skipComment` does on a consistent cursor: it returns `false` and leaves the lexer
alone, or it returns `true` after reading one line comment or one closed block comment, or
it returns `true` after reading an open block comment up to a zero byte, with the message
appended. -/
theorem skipComment_reads {l : Lexer} (h : Synced l) :
    ((skipComment l) = (false, l) ∧ ¬ (l.ch = 47 ∧ (peekChar l = 47 ∨ peekChar l = 42))) ∨
    ((skipComment l).1 = true ∧ ∃ w, Trivia w ∧ 2 ≤ w.length ∧ Reads l (skipComment l).2 w ∧
      (skipComment l).2.errors = l.errors) ∨
    ((skipComment l).1 = true ∧ ∃ s, NoClose s ∧ (0 : Byte) ∉ s ∧
      Reads l (skipComment l).2 (47 :: 42 :: s) ∧ (skipComment l).2.ch = 0 ∧
      (skipComment l).2.errors =
        l.errors ++ [unterminatedMsg (skipComment l).2.line (skipComment l).2.column]) := by
  by_cases h47 : l.ch = 47
  · by_cases hp1 : peekChar l = 47
    · right; left
      have hw : skipComment l = (true, readWhile inLineComment
          (loopFuel (readChar (readChar l))) (readChar (readChar l))) := by
        simp [skipComment, h47, hp1]
      rw [hw]
      dsimp only
      have h2 := reads_two h h47 hp1 (by decide) (by decide)
      obtain ⟨r1, r2, -⟩ := readWhile_reads inLineComment (by decide)
        (loopFuel (readChar (readChar l))) (readChar (readChar l)) h2.synced
        (by have := rest_length_le_fuel h2.synced; omega)
      refine ⟨rfl, _, ?_, ?_, h2.trans r1, by rw [r2]; simp⟩
      · have := Trivia.line (s := (rest (readChar (readChar l))).takeWhile inLineComment)
          (t := []) ?_ Trivia.nil
        · simpa using this
        · intro c hc
          have := List.mem_takeWhile_imp hc
          intro h10; rw [h10] at this; revert this; decide
      · simp
    · by_cases hp2 : peekChar l = 42
      · have hw : skipComment l = (true, blockLoop
            (loopFuel (readChar (readChar l))) (readChar (readChar l))) := by
          simp [skipComment, h47, hp1, hp2]
        rw [hw]
        dsimp only
        have h2 := reads_two h h47 hp2 (by decide) (by decide)
        rcases blockLoop_reads (loopFuel (readChar (readChar l))) (readChar (readChar l))
          h2.synced (rest_length_le_fuel h2.synced) with
          ⟨s, hs1, -, hs3, hs4⟩ | ⟨s, hs1, hs2, hs3, hs4, hs5⟩
        · right; left
          refine ⟨rfl, _, ?_, ?_, h2.trans hs3, by rw [hs4]; simp⟩
          · have := Trivia.block (s := s) (t := []) hs1 Trivia.nil
            simpa using this
          · simp
        · right; right
          refine ⟨rfl, s, hs1, hs2, ?_, hs4, by rw [hs5]; simp⟩
          have := h2.trans hs3
          simpa using this
      · left
        refine ⟨by simp [skipComment, h47, hp1, hp2], ?_⟩
        rintro ⟨-, h1 | h1⟩
        · exact hp1 h1
        · exact hp2 h1
  · left
    exact ⟨by simp [skipComment, h47], fun hh => h47 hh.1⟩

theorem TriviaRun.none {l : Lexer} (h : Synced l) : TriviaRun l l :=
  Or.inl ⟨[], Trivia.nil, Reads.nil h, rfl⟩

theorem TriviaRun.prepend_run {a b c : Lexer} {w : List Byte} (hw : Trivia w) (hr : Reads a b w)
    (he : b.errors = a.errors) (h : TriviaRun b c) : TriviaRun a c := by
  rcases h with ⟨v, hv1, hv2, hv3⟩ | ⟨v, hv1, hv2, hv3, hv4⟩
  · exact Or.inl ⟨w ++ v, hw.append hv1, hr.trans hv2, by rw [hv3, he]⟩
  · exact Or.inr ⟨w ++ v, hv1.prepend hw, hr.trans hv2, hv3, by rw [hv4, he]⟩

theorem TriviaRun.synced {a b : Lexer} (h : TriviaRun a b) : Synced b := by
  rcases h with ⟨_, _, h, _⟩ | ⟨_, _, h, _⟩ <;> exact h.synced

theorem TriviaRun.rest_length_le {a b : Lexer} (h : TriviaRun a b) :
    (rest b).length ≤ (rest a).length := by
  rcases h with ⟨_, _, h, _⟩ | ⟨_, _, h, _⟩
  · have := h.rest_length_eq; omega
  · have := h.rest_length_eq; omega

theorem TriviaRun.run_input {a b : Lexer} (h : TriviaRun a b) : b.input = a.input := by
  rcases h with ⟨_, _, h, _⟩ | ⟨_, _, h, _⟩ <;> exact h.input_eq

theorem TriviaRun.run_tokens {a b : Lexer} (h : TriviaRun a b) : b.tokens = a.tokens := by
  rcases h with ⟨_, _, h, _⟩ | ⟨_, _, h, _⟩ <;> exact h.tokens_eq

theorem commentLoop_reads :
    ∀ (n : Nat) (l : Lexer), Synced l → (rest l).length + 1 ≤ n →
      TriviaRun l (commentLoop n l) := by
  intro n
  induction n with
  | zero => intro l _ hn; omega
  | succ n ih =>
    intro l hs hn
    have key := skipComment_reads hs
    unfold commentLoop
    generalize skipComment l = r at key ⊢
    obtain ⟨b, l1⟩ := r
    rcases key with ⟨he, -⟩ | ⟨hb, w, hw1, hw2, hw3, hw4⟩ | ⟨hb, s, hs1, hs2, hs3, hs4, hs5⟩
    · cases he
      exact TriviaRun.none hs
    · dsimp only at hb hw3 hw4
      subst hb
      dsimp only
      obtain ⟨v, hv1, hv2⟩ := skipWhitespace_trivia hw3.synced
      have hlen : (rest (skipWhitespace l1)).length + 1 ≤ n := by
        have := hw3.rest_length_eq; have := hv2.rest_length_eq; omega
      have he : (skipWhitespace l1).errors = l1.errors := (skipWhitespace_reads hw3.synced).2.1
      exact TriviaRun.prepend_run hw1 hw3 hw4
        (TriviaRun.prepend_run hv1 hv2 he (ih _ hv2.synced hlen))
    · dsimp only at hb hs3 hs4 hs5
      subst hb
      dsimp only
      have hsp : skipWhitespace l1 = l1 :=
        readWhile_of_not isSpace _ (by rw [hs4]; decide)
      have hcm : commentLoop n l1 = l1 := by
        cases n with
        | zero => rfl
        | succ n => simp [commentLoop, skipComment, hs4]
      rw [hsp, hcm]
      exact Or.inr ⟨47 :: 42 :: s, ⟨[], s, Trivia.nil, hs1, rfl⟩, hs3, hs4, hs5⟩

/-- What the trivia-skipping prefix of `NextToken` does on a consistent cursor. -/
theorem skipTrivia_reads {l : Lexer} (h : Synced l) : TriviaRun l (skipTrivia l) := by
  obtain ⟨v, hv1, hv2⟩ := skipWhitespace_trivia h
  have he : (skipWhitespace l).errors = l.errors := (skipWhitespace_reads h).2.1
  exact TriviaRun.prepend_run hv1 hv2 he
    (commentLoop_reads _ _ hv2.synced (rest_length_le_fuel hv2.synced))

theorem skipComment_true (l : Lexer) (h : (skipComment l).1 = true) :
    Synced (skipComment l).2 ∧
      (rest (skipComment l).2).length ≤ (rest (readChar (readChar l))).length := by
  have h2 : Synced (readChar (readChar l)) := synced_readChar _
  unfold skipComment at h ⊢
  split_ifs at h ⊢ with h1 h3 h4
  · dsimp only
    obtain ⟨r1, -, -⟩ := readWhile_reads inLineComment (by decide)
      (loopFuel (readChar (readChar l))) (readChar (readChar l)) h2
      (by have := rest_length_le_fuel h2; omega)
    have := r1.rest_length_eq
    exact ⟨r1.synced, by omega⟩
  · dsimp only
    rcases blockLoop_reads (loopFuel (readChar (readChar l))) (readChar (readChar l))
      h2 (rest_length_le_fuel h2) with ⟨s, -, -, r1, -⟩ | ⟨s, -, -, r1, -, -⟩
    · have := r1.rest_length_eq
      exact ⟨r1.synced, by simp only [List.length_append] at this; omega⟩
    · have := r1.rest_length_eq
      exact ⟨r1.synced, by omega⟩

theorem commentLoop_fuel :
    ∀ (n m : Nat) (l : Lexer), Synced l → (rest l).length + 1 ≤ n → (rest l).length + 1 ≤ m →
      commentLoop n l = commentLoop m l := by
  intro n
  induction n with
  | zero => intro m l _ hn; omega
  | succ n ih =>
    intro m l hs hn hm
    cases m with
    | zero => omega
    | succ m =>
      have key := skipComment_reads hs
      unfold commentLoop
      generalize skipComment l = r at key ⊢
      obtain ⟨b, l1⟩ := r
      rcases key with ⟨he, -⟩ | ⟨hb, w, -, hw2, hw3, -⟩ | ⟨hb, s, -, -, hs3, -, -⟩
      · cases he; rfl
      · dsimp only at hb hw3
        subst hb
        dsimp only
        have hv := (skipWhitespace_reads hw3.synced).1
        have := hv.rest_length_eq
        have := hw3.rest_length_eq
        exact ih m _ hv.synced (by omega) (by omega)
      · dsimp only at hb hs3
        subst hb
        dsimp only
        have hv := (skipWhitespace_reads hs3.synced).1
        have := hv.rest_length_eq
        have := hs3.rest_length_eq
        simp only [List.length_cons] at this
        exact ih m _ hv.synced (by omega) (by omega)

/-- The comment loop of `NextToken` never runs out of fuel: on every lexer state the wrapper
satisfies the unfolding equation of the loop. -/
theorem commentLoop_loop (l : Lexer) :
    commentLoop (loopFuel l) l =
      match skipComment l with
      | (true, l1) => commentLoop (loopFuel (skipWhitespace l1)) (skipWhitespace l1)
      | (false, l1) => l1 := by
  have hf : loopFuel l = (loopFuel l - 1) + 1 := by unfold loopFuel; omega
  have key := skipComment_true l
  have hr := rest_readChar_length (readChar l)
  have hfl : loopFuel (readChar l) ≤ loopFuel l := by unfold loopFuel; simp; omega
  rw [hf, commentLoop]
  generalize skipComment l = r at key ⊢
  obtain ⟨b, l1⟩ := r
  cases b with
  | false => rfl
  | true =>
    obtain ⟨k1, k2⟩ := key rfl
    dsimp only at k1 k2 ⊢
    have hv := (skipWhitespace_reads k1).1
    have := hv.rest_length_eq
    have := rest_length_le_fuel hv.synced
    exact commentLoop_fuel _ _ _ hv.synced (by omega) (by omega)

/-- The method `skipWhitespace` satisfies the unfolding equation of its loop on every lexer
state. -/
theorem skipWhitespace_loop (l : Lexer) :
    skipWhitespace l = if isSpace l.ch then skipWhitespace (readChar l) else l :=
  readWhile_loop isSpace (by decide) l

/-! ## One token -/

theorem iterate_readChar_position_succ (k : Nat) (l : Lexer) :
    (readChar^[k + 1] l).position = l.readPosition + k := by
  rw [Function.iterate_succ_apply', readChar_position, iterate_readChar_readPosition]

theorem Reads.position_eq {a b : Lexer} {w : List Byte} (h : Reads a b w) (ha : Synced a) :
    b.position = a.position + w.length := by
  rw [← h.cursor]
  cases hk : w.length with
  | zero => rfl
  | succ k =>
    show (readChar^[k + 1] a).position = _
    rw [iterate_readChar_position_succ, ha.1]; omega

theorem lexed_single {l : Lexer} (hs : Synced l) (h0 : l.ch ≠ 0) (hl : isLetter l.ch = false)
    (k : TokenType)
    (hk : k = TokConstant ∨ k = TokAssignment ∨ k = TokLeftParen ∨ k = TokRightParen ∨
      k = TokSemicolon) :
    Lexed l ⟨k, [l.ch], l.line, l.column, getTokenTypeName k⟩ (readChar l) [l.ch] where
  reads := Reads.one hs h0
  ch_ne := h0
  nonempty := by simp
  notEOF := by rcases hk with h | h | h | h | h <;> simp [h]
  line := rfl
  column := rfl
  typeStr := rfl
  kind := Or.inr (Or.inr ⟨hl, rfl, by simp, hk⟩)

theorem lexed_error {l : Lexer} (hs : Synced l) (h0 : l.ch ≠ 0) (hl : isLetter l.ch = false) :
    Lexed l ⟨TokError, byteToString l.ch, l.line, l.column, getTokenTypeName TokError⟩
      { readChar l with
        errors := l.errors ++ [errorMsg (unexpectedMsg l.ch) l.line l.column] } [l.ch] where
  reads := (Reads.one hs h0).setErrors _
  ch_ne := h0
  nonempty := by simp
  notEOF := by simp
  line := rfl
  column := rfl
  typeStr := rfl
  kind := Or.inl ⟨rfl, rfl, rfl, hl, rfl⟩

theorem lexed_assign {l : Lexer} (hs : Synced l) (h58 : l.ch = 58) (h61 : peekChar l = 61) :
    Lexed l ⟨TokAssignment, [58, 61], l.line, l.column, getTokenTypeName TokAssignment⟩
      (readChar (readChar l)) [58, 61] where
  reads := reads_two hs h58 h61 (by decide) (by decide)
  ch_ne := by rw [h58]; decide
  nonempty := by simp
  notEOF := by simp
  line := rfl
  column := rfl
  typeStr := rfl
  kind := Or.inr (Or.inr ⟨by rw [h58]; decide, rfl, by simp, Or.inr (Or.inl rfl)⟩)

theorem isIdentByte_zero : isIdentByte 0 = false := by decide

theorem take_of_split {a w b : List Byte} (h : a = w ++ b) : a.take w.length = w := by
  subst h; simp

theorem readIdentifier_spec {l : Lexer} (hs : Synced l) (hl : isLetter l.ch = true) :
    readIdentifier l = .ok ((rest l).takeWhile isIdentByte,
        readWhile isIdentByte (loopFuel l) l) ∧
      Reads l (readWhile isIdentByte (loopFuel l) l) ((rest l).takeWhile isIdentByte) ∧
      (readWhile isIdentByte (loopFuel l) l).errors = l.errors ∧
      (rest l).takeWhile isIdentByte ≠ [] := by
  obtain ⟨r1, r2, -⟩ := readWhile_reads isIdentByte isIdentByte_zero (loopFuel l) l hs
    (by have := rest_length_le_fuel hs; omega)
  have h0 : l.ch ≠ 0 := by
    intro h; rw [h] at hl; revert hl; decide
  have hr := hs.rest_of_ch_ne h0
  have hne : (rest l).takeWhile isIdentByte ≠ [] := by
    rw [hr, List.takeWhile_cons_of_pos (by simp [isIdentByte, hl])]
    simp
  refine ⟨?_, r1, r2, hne⟩
  have hpos := r1.position_eq hs
  have hlen := r1.rest_length_eq
  have hrl := rest_length l
  have hin := r1.input_eq
  have hlt : l.position < l.input.length := by
    rw [hr] at hrl; simp at hrl; omega
  have hsl : slice (readWhile isIdentByte (loopFuel l) l).input l.position
      (readWhile isIdentByte (loopFuel l) l).position = .ok ((rest l).takeWhile isIdentByte) := by
    unfold slice
    rw [hin, hpos, if_pos ⟨by omega, by omega⟩]
    congr 1
    have : l.position + ((rest l).takeWhile isIdentByte).length - l.position =
        ((rest l).takeWhile isIdentByte).length := by omega
    rw [this]
    exact take_of_split r1.split
  unfold readIdentifier
  dsimp only
  rw [hsl]

theorem lexed_ident {l : Lexer} (hs : Synced l) (hl : isLetter l.ch = true) :
    Lexed l ⟨lookupKeyword ((rest l).takeWhile isIdentByte), (rest l).takeWhile isIdentByte,
        l.line, l.column, getTokenTypeName (lookupKeyword ((rest l).takeWhile isIdentByte))⟩
      (readWhile isIdentByte (loopFuel l) l) ((rest l).takeWhile isIdentByte) where
  reads := (readIdentifier_spec hs hl).2.1
  ch_ne := by intro h; rw [h] at hl; revert hl; decide
  nonempty := (readIdentifier_spec hs hl).2.2.2
  notEOF := by
    unfold lookupKeyword
    split_ifs <;> simp
  line := rfl
  column := rfl
  typeStr := rfl
  kind := Or.inr (Or.inl ⟨hl, rfl, rfl, rfl, (readIdentifier_spec hs hl).2.2.1⟩)

theorem unexpectedMsg_colon : "Неожиданный символ ':'" = unexpectedMsg 58 := by decide

/-- What the `switch` of `NextToken` does on a consistent cursor: at a zero byte it returns
the end-of-input token and calls `readChar`; otherwise it returns a token for the bytes it
reads. It never fails. -/
theorem classify_spec {l : Lexer} (hs : Synced l) :
    (l.ch = 0 ∧ classify l = .ok (eofToken l.line l.column, readChar l)) ∨
    (∃ tok l2 w, classify l = .ok (tok, l2) ∧ Lexed l tok l2 w) := by
  by_cases h58 : l.ch = 58
  · have hl : isLetter l.ch = false := by rw [h58]; decide
    have h0 : l.ch ≠ 0 := by rw [h58]; decide
    by_cases h61 : peekChar l = 61
    · right
      have hv : byteToString l.ch ++ byteToString (readChar l).ch = [58, 61] := by
        rw [h58, ← peekChar_eq_readChar_ch, h61]; rfl
      refine ⟨_, _, _, ?_, lexed_assign hs h58 h61⟩
      unfold classify
      rw [if_pos h58, if_pos h61]
      dsimp only [finish]
      rw [hv]
    · right
      refine ⟨_, _, _, ?_, lexed_error hs h0 hl⟩
      unfold classify
      rw [if_pos h58, if_neg h61]
      dsimp only [finish, makeError]
      rw [readChar_setErrors, unexpectedMsg_colon, h58]
  · by_cases h40 : l.ch = 40
    · right
      have := lexed_single hs (by rw [h40]; decide) (by rw [h40]; decide) TokLeftParen (by simp)
      rw [h40] at this
      refine ⟨_, _, _, ?_, this⟩
      unfold classify
      rw [if_neg h58, if_pos h40]
      rfl
    · by_cases h41 : l.ch = 41
      · right
        have := lexed_single hs (by rw [h41]; decide) (by rw [h41]; decide) TokRightParen
          (by simp)
        rw [h41] at this
        refine ⟨_, _, _, ?_, this⟩
        unfold classify
        rw [if_neg h58, if_neg h40, if_pos h41]
        rfl
      · by_cases h59 : l.ch = 59
        · right
          have := lexed_single hs (by rw [h59]; decide) (by rw [h59]; decide) TokSemicolon
            (by simp)
          rw [h59] at this
          refine ⟨_, _, _, ?_, this⟩
          unfold classify
          rw [if_neg h58, if_neg h40, if_neg h41, if_pos h59]
          rfl
        · by_cases h48 : l.ch = 48
          · right
            have := lexed_single hs (by rw [h48]; decide) (by rw [h48]; decide) TokConstant
              (by simp)
            rw [h48] at this
            refine ⟨_, _, _, ?_, this⟩
            unfold classify
            rw [if_neg h58, if_neg h40, if_neg h41, if_neg h59, if_pos h48]
            rfl
          · by_cases h49 : l.ch = 49
            · right
              have := lexed_single hs (by rw [h49]; decide) (by rw [h49]; decide) TokConstant
                (by simp)
              rw [h49] at this
              refine ⟨_, _, _, ?_, this⟩
              unfold classify
              rw [if_neg h58, if_neg h40, if_neg h41, if_neg h59, if_neg h48, if_pos h49]
              rfl
            · by_cases h0 : l.ch = 0
              · left
                refine ⟨h0, ?_⟩
                unfold classify
                rw [if_neg h58, if_neg h40, if_neg h41, if_neg h59, if_neg h48, if_neg h49,
                  if_pos h0]
                rfl
              · by_cases hl : isLetter l.ch = true
                · right
                  refine ⟨_, _, _, ?_, lexed_ident hs hl⟩
                  unfold classify
                  rw [if_neg h58, if_neg h40, if_neg h41, if_neg h59, if_neg h48, if_neg h49,
                    if_neg h0, if_pos hl, (readIdentifier_spec hs hl).1]
                · right
                  have hl2 : isLetter l.ch = false := by simpa using hl
                  refine ⟨_, _, _, ?_, lexed_error hs h0 hl2⟩
                  unfold classify
                  rw [if_neg h58, if_neg h40, if_neg h41, if_neg h59, if_neg h48, if_neg h49,
                    if_neg h0, if_neg hl]
                  dsimp only [finish, makeError]
                  rw [readChar_setErrors]

/-! ## The whole scan -/

/-- On a consistent cursor `NextToken` never fails: it returns the end-of-input token at a
zero byte, or a token for the bytes it reads after the trivia. -/
theorem NextToken_spec {l : Lexer} (hs : Synced l) :
    TriviaRun l (skipTrivia l) ∧
    (((skipTrivia l).ch = 0 ∧
      NextToken l = .ok (eofToken (skipTrivia l).line (skipTrivia l).column,
        readChar (skipTrivia l))) ∨
    (∃ tok l2 w, NextToken l = .ok (tok, l2) ∧ Lexed (skipTrivia l) tok l2 w)) :=
  ⟨skipTrivia_reads hs, classify_spec (skipTrivia_reads hs).synced⟩

theorem analyzeLoop_eof {l l1 : Lexer} {line column : Nat}
    (he : NextToken l = .ok (eofToken line column, l1)) (n : Nat) :
    analyzeLoop (n + 1) l = .ok l1 := by
  rw [analyzeLoop, he]
  rfl

theorem analyzeLoop_tok {l l2 : Lexer} {tok : Token} (he : NextToken l = .ok (tok, l2))
    (hne : tok.Typ ≠ TokEOF) (n : Nat) :
    analyzeLoop (n + 1) l = analyzeLoop n { l2 with tokens := l2.tokens ++ [tok] } := by
  rw [analyzeLoop, he]
  dsimp only
  rw [if_pos hne]

theorem analyzeLoop_scan_aux :
    ∀ (k : Nat) (l : Lexer), Synced l → (rest l).length ≤ k →
      ∃ l3, Scan l l3 ∧ ∀ n, (rest l).length + 1 ≤ n → analyzeLoop n l = .ok l3 := by
  intro k
  induction k with
  | zero =>
    intro l hs hk
    obtain ⟨ht, ⟨h0, he⟩ | ⟨tok, l2, w, he, hx⟩⟩ := NextToken_spec hs
    · refine ⟨_, Scan.eof hs ht h0 he, ?_⟩
      intro n hn
      cases n with
      | zero => omega
      | succ n => exact analyzeLoop_eof he n
    · exfalso
      have h1 := ht.rest_length_le
      have h2 := hx.reads.rest_length_eq
      have h3 := List.length_pos.mpr hx.nonempty
      omega
  | succ k ih =>
    intro l hs hk
    obtain ⟨ht, ⟨h0, he⟩ | ⟨tok, l2, w, he, hx⟩⟩ := NextToken_spec hs
    · refine ⟨_, Scan.eof hs ht h0 he, ?_⟩
      intro n hn
      cases n with
      | zero => omega
      | succ n => exact analyzeLoop_eof he n
    · have h1 := ht.rest_length_le
      have h2 := hx.reads.rest_length_eq
      have h3 := List.length_pos.mpr hx.nonempty
      have hs2 : Synced { l2 with tokens := l2.tokens ++ [tok] } := hx.reads.synced
      have hr2 : rest { l2 with tokens := l2.tokens ++ [tok] } = rest l2 := rfl
      obtain ⟨l3, hsc, hfu⟩ := ih { l2 with tokens := l2.tokens ++ [tok] } hs2
        (by rw [hr2]; omega)
      refine ⟨l3, Scan.tok hs ht hx he hsc, ?_⟩
      intro n hn
      cases n with
      | zero => omega
      | succ n =>
        rw [analyzeLoop_tok he hx.notEOF]
        exact hfu n (by rw [hr2]; omega)

/-- The method `Analyze` on a fresh lexer returns, the loop makes at most `len(input) + 1`
calls of `NextToken`, and the run is a `Scan`. -/
theorem Analyze_scan (input : List Byte) :
    ∃ l3, Scan (NewLexer input) l3 ∧ Analyze (NewLexer input) = .ok l3 ∧
      ∀ n, input.length + 1 ≤ n → analyzeLoop n (NewLexer input) = .ok l3 := by
  obtain ⟨l3, h1, h2⟩ := analyzeLoop_scan_aux _ (NewLexer input) (synced_NewLexer input)
    (Nat.le_refl _)
  rw [rest_NewLexer] at h2
  refine ⟨l3, h1, ?_, h2⟩
  apply h2
  have := rest_length_le_fuel (synced_NewLexer input)
  rw [rest_NewLexer] at this
  exact this

/-! ## The stored tokens do not influence the scan -/

@[simp] theorem setTokens_ch (ts : List Token) (l : Lexer) : (setTokens ts l).ch = l.ch := rfl

@[simp] theorem setTokens_line (ts : List Token) (l : Lexer) :
    (setTokens ts l).line = l.line := rfl

@[simp] theorem setTokens_column (ts : List Token) (l : Lexer) :
    (setTokens ts l).column = l.column := rfl

@[simp] theorem setTokens_position (ts : List Token) (l : Lexer) :
    (setTokens ts l).position = l.position := rfl

@[simp] theorem setTokens_input (ts : List Token) (l : Lexer) :
    (setTokens ts l).input = l.input := rfl

@[simp] theorem setTokens_errors (ts : List Token) (l : Lexer) :
    (setTokens ts l).errors = l.errors := rfl

@[simp] theorem peekChar_setTokens (ts : List Token) (l : Lexer) :
    peekChar (setTokens ts l) = peekChar l := rfl

@[simp] theorem loopFuel_setTokens (ts : List Token) (l : Lexer) :
    loopFuel (setTokens ts l) = loopFuel l := rfl

theorem readChar_setTokens_eq (ts : List Token) (l : Lexer) :
    readChar (setTokens ts l) = setTokens ts (readChar l) :=
  readChar_setTokens l ts

theorem readWhile_setTokens (p : Byte → Bool) (ts : List Token) :
    ∀ (n : Nat) (l : Lexer),
      readWhile p n (setTokens ts l) = setTokens ts (readWhile p n l) := by
  intro n
  induction n with
  | zero => intro l; rfl
  | succ n ih =>
    intro l
    simp only [readWhile, setTokens_ch]
    split_ifs
    · rw [readChar_setTokens_eq, ih]
    · rfl

theorem blockLoop_setTokens (ts : List Token) :
    ∀ (n : Nat) (l : Lexer),
      blockLoop n (setTokens ts l) = setTokens ts (blockLoop n l) := by
  intro n
  induction n with
  | zero => intro l; rfl
  | succ n ih =>
    intro l
    simp only [blockLoop, setTokens_ch, peekChar_setTokens]
    split_ifs
    · rfl
    · rw [readChar_setTokens_eq, readChar_setTokens_eq]
    · rw [readChar_setTokens_eq, ih]

theorem skipComment_setTokens (ts : List Token) (l : Lexer) :
    skipComment (setTokens ts l) = ((skipComment l).1, setTokens ts (skipComment l).2) := by
  simp only [skipComment, setTokens_ch, peekChar_setTokens]
  split_ifs
  · simp only [readChar_setTokens_eq, loopFuel_setTokens, readWhile_setTokens]
  · simp only [readChar_setTokens_eq, loopFuel_setTokens, blockLoop_setTokens]
  · rfl
  · rfl

theorem skipWhitespace_setTokens (ts : List Token) (l : Lexer) :
    skipWhitespace (setTokens ts l) = setTokens ts (skipWhitespace l) :=
  readWhile_setTokens isSpace ts _ l

theorem commentLoop_setTokens (ts : List Token) :
    ∀ (n : Nat) (l : Lexer),
      commentLoop n (setTokens ts l) = setTokens ts (commentLoop n l) := by
  intro n
  induction n with
  | zero => intro l; rfl
  | succ n ih =>
    intro l
    simp only [commentLoop, skipComment_setTokens]
    generalize skipComment l = r
    obtain ⟨b, l1⟩ := r
    cases b with
    | false => rfl
    | true =>
      dsimp only
      rw [skipWhitespace_setTokens, ih]

theorem skipTrivia_setTokens (ts : List Token) (l : Lexer) :
    skipTrivia (setTokens ts l) = setTokens ts (skipTrivia l) := by
  unfold skipTrivia
  dsimp only
  rw [skipWhitespace_setTokens, loopFuel_setTokens]
  exact commentLoop_setTokens ts _ _

theorem makeError_setTokens (ts : List Token) (l : Lexer) (msg : String) :
    makeError (setTokens ts l) msg = ((makeError l msg).1, setTokens ts (makeError l msg).2) :=
  rfl

theorem finish_setTokens (ts : List Token) (tok : Token) (l : Lexer) :
    finish tok (setTokens ts l) = withTokens ts (finish tok l) := by
  simp only [finish, readChar_setTokens_eq, withTokens]

theorem readIdentifier_setTokens (ts : List Token) (l : Lexer) :
    readIdentifier (setTokens ts l) =
      match readIdentifier l with
      | .ok (s, l1) => .ok (s, setTokens ts l1)
      | .error e => .error e := by
  simp only [readIdentifier, loopFuel_setTokens, readWhile_setTokens, setTokens_input,
    setTokens_position]
  generalize slice _ _ _ = r
  cases r with
  | ok s => rfl
  | error e => rfl

theorem classify_setTokens (ts : List Token) (l : Lexer) :
    classify (setTokens ts l) = withTokens ts (classify l) := by
  simp only [classify, setTokens_ch, peekChar_setTokens, setTokens_line, setTokens_column]
  by_cases h58 : l.ch = 58
  · simp only [if_pos h58]
    by_cases h61 : peekChar l = 61
    · simp only [if_pos h61]
      rw [readChar_setTokens_eq, finish_setTokens]; rfl
    · simp only [if_neg h61]
      rw [makeError_setTokens]; exact finish_setTokens _ _ _
  · simp only [if_neg h58]
    by_cases h40 : l.ch = 40
    · simp only [if_pos h40]; exact finish_setTokens _ _ _
    · simp only [if_neg h40]
      by_cases h41 : l.ch = 41
      · simp only [if_pos h41]; exact finish_setTokens _ _ _
      · simp only [if_neg h41]
        by_cases h59 : l.ch = 59
        · simp only [if_pos h59]; exact finish_setTokens _ _ _
        · simp only [if_neg h59]
          by_cases h48 : l.ch = 48
          · simp only [if_pos h48]; exact finish_setTokens _ _ _
          · simp only [if_neg h48]
            by_cases h49 : l.ch = 49
            · simp only [if_pos h49]; exact finish_setTokens _ _ _
            · simp only [if_neg h49]
              by_cases h0 : l.ch = 0
              · simp only [if_pos h0]; exact finish_setTokens _ _ _
              · simp only [if_neg h0]
                by_cases hl : isLetter l.ch = true
                · simp only [if_pos hl]
                  rw [readIdentifier_setTokens]
                  generalize readIdentifier l = r
                  rcases r with e | ⟨s, l1⟩
                  · rfl
                  · rfl
                · simp only [if_neg hl]
                  rw [makeError_setTokens]; exact finish_setTokens _ _ _

/-- A call of `NextToken` neither reads nor changes the stored tokens. -/
theorem NextToken_setTokens (ts : List Token) (l : Lexer) :
    NextToken (setTokens ts l) = withTokens ts (NextToken l) := by
  unfold NextToken
  rw [skipTrivia_setTokens, classify_setTokens]

/-! ## Round trip -/

theorem Splits.length_le {vs : List (List Byte)} {input : List Byte} (h : Splits vs input) :
    (vs.map List.length).sum ≤ input.length := by
  induction h with
  | done _ => simp
  | tok _ _ ih => simp only [List.map_cons, List.sum_cons, List.length_append]; omega

/-- A non-empty run of trivia starts with a whitespace byte or with `/`. -/
theorem Trivia.head_byte {t : List Byte} (h : Trivia t) (hne : t ≠ []) :
    isSpace (t.headD 0) = true ∨ t.headD 0 = 47 := by
  cases h with
  | nil => exact absurd rfl hne
  | space hc _ => exact Or.inl hc
  | line _ _ => exact Or.inr rfl
  | block _ _ => exact Or.inr rfl

theorem FinalTrivia.first_byte {t : List Byte} (h : FinalTrivia t) (hne : t ≠ []) :
    isSpace (t.headD 0) = true ∨ t.headD 0 = 47 := by
  rcases h with h | ⟨t1, s, h1, -, rfl⟩
  · exact h.head_byte hne
  · cases t1 with
    | nil => exact Or.inr rfl
    | cons c t1 => exact h1.head_byte (by simp)

theorem mem_input_of_mem_rest {l : Lexer} {b : Byte} (h : b ∈ rest l) : b ∈ l.input :=
  List.mem_of_mem_drop h

/-- On an input without NUL byte a consistent cursor shows `0` only at the end of input. -/
theorem rest_nil_of_ch_zero {l : Lexer} (hs : Synced l) (h0 : l.ch = 0)
    (hnul : ∀ b ∈ l.input, b ≠ 0) : rest l = [] := by
  cases hr : rest l with
  | nil => rfl
  | cons c r =>
    have hc : l.ch = c := hs.ch_cons hr
    have : c ∈ l.input := mem_input_of_mem_rest (by rw [hr]; exact List.mem_cons_self _ _)
    exact absurd (hc.symm.trans h0) (hnul c this)

theorem ch_mem_input {l : Lexer} (hs : Synced l) (h0 : l.ch ≠ 0) : l.ch ∈ l.input :=
  mem_input_of_mem_rest (by rw [hs.rest_of_ch_ne h0]; exact List.mem_cons_self _ _)

theorem TriviaRun.not_open {a b : Lexer} (h : TriviaRun a b) (hb : b.ch ≠ 0) :
    ∃ w, Trivia w ∧ Reads a b w ∧ b.errors = a.errors := by
  rcases h with h | ⟨_, _, _, h0, _⟩
  · exact h
  · exact absurd h0 hb

theorem TriviaRun.final {a b : Lexer} (h : TriviaRun a b) (hb : rest b = []) :
    FinalTrivia (rest a) := by
  rcases h with ⟨w, h1, h2, -⟩ | ⟨w, h1, h2, -, -⟩
  · rw [h2.split, hb, List.append_nil]; exact Or.inl h1
  · rw [h2.split, hb, List.append_nil]; exact Or.inr h1

/-- The text of a token is the bytes read for it, unless the token is an Error token for a
byte from 0x80 on. -/
theorem Lexed.value_eq {l l2 : Lexer} {tok : Token} {w : List Byte} (h : Lexed l tok l2 w)
    (hb : l.ch.val < 128 ∨ isLetter l.ch = true) : tok.Value = w := by
  rcases h.kind with ⟨-, h2, h3, h4, -⟩ | ⟨-, -, h3, -, -⟩ | ⟨-, h2, -, -⟩
  · rw [h2, h3]
    rcases hb with hb | hb
    · simp [byteToString, hb]
    · rw [h4] at hb; exact absurd hb (by simp)
  · exact h3
  · exact h2

theorem Scan.tokens_input {l l3 : Lexer} (h : Scan l l3) :
    l3.input = l.input ∧ ∃ toks, l3.tokens = l.tokens ++ toks := by
  induction h with
  | @eof l _ ht _ _ =>
    exact ⟨by rw [readChar_input, ht.run_input], [], by rw [readChar_tokens, ht.run_tokens]; simp⟩
  | @tok l l2 l3 tok w _ ht hx _ _ ih =>
    obtain ⟨h1, toks, h2⟩ := ih
    refine ⟨by rw [h1]; show l2.input = _; rw [hx.reads.input_eq, ht.run_input], tok :: toks, ?_⟩
    rw [h2]
    show (l2.tokens ++ [tok]) ++ toks = _
    rw [hx.reads.tokens_eq, ht.run_tokens]; simp

theorem Scan.splits {l l3 : Lexer} (h : Scan l l3)
    (hin : ∀ b ∈ l.input, b ≠ 0 ∧ (b.val < 128 ∨ isLetter b = true)) :
    ∃ toks, l3.tokens = l.tokens ++ toks ∧ Splits (toks.map Token.Value) (rest l) := by
  induction h with
  | @eof l _ ht h0 _ =>
    refine ⟨[], by rw [readChar_tokens, ht.run_tokens]; simp, Splits.done (ht.final ?_)⟩
    exact rest_nil_of_ch_zero ht.synced h0 (fun b hb => (hin b (by rwa [ht.run_input] at hb)).1)
  | @tok l l2 l3 tok w _ ht hx _ _ ih =>
    obtain ⟨t, ht1, ht2, -⟩ := ht.not_open hx.ch_ne
    have hi2 : l2.input = l.input := by rw [hx.reads.input_eq, ht.run_input]
    obtain ⟨toks, h1, h2⟩ := ih (fun b hb => hin b (by rw [← hi2]; exact hb))
    have hv : tok.Value = w := hx.value_eq
      (hin _ (by rw [← ht.run_input]; exact ch_mem_input ht.synced hx.ch_ne)).2
    refine ⟨tok :: toks, ?_, ?_⟩
    · rw [h1]
      show (l2.tokens ++ [tok]) ++ toks = _
      rw [hx.reads.tokens_eq, ht.run_tokens]; simp
    · rw [ht2.split, hx.reads.split, List.map_cons, hv, ← List.append_assoc]
      exact Splits.tok ht1 h2

/-! ## Claims -/

/-- C1 (counterexample). The round trip fails as stated on two inputs. On the two bytes
0xD1 0x8F (the UTF-8 encoding of a Cyrillic letter) the stored token texts have three bytes
in all, more than the input, because the Error token for the byte 0x8F carries the two bytes
0xC2 0x8F. On the two bytes NUL, `a` nothing is stored, and the input is not trivia. -/
theorem C1_round_trip_counterexample :
    (∃ l, Analyze (NewLexer [209, 143]) = .ok l ∧
      l.tokens.map Token.Value = [[209], [194, 143]] ∧
      ¬ Splits (l.tokens.map Token.Value) [209, 143]) ∧
    (∃ l, Analyze (NewLexer [0, 97]) = .ok l ∧ l.tokens = [] ∧
      ¬ Splits (l.tokens.map Token.Value) [0, 97]) := by
  refine ⟨⟨_, rfl, rfl, ?_⟩, ⟨_, rfl, rfl, ?_⟩⟩
  · intro h
    have := h.length_le
    revert this
    decide
  · intro h
    have h1 : Splits [] [0, 97] := h
    cases h1 with
    | done hf =>
      have := hf.first_byte (by simp)
      revert this
      decide

/-- C1 (amended). For every input that has no NUL byte and whose bytes from 0x80 on are all
letters for `unicode.IsLetter` (in particular for every input of bytes 0x01..0x7F),
`NewLexer(input).Analyze()` returns and the input splits, in order, as
`t0 ++ v1 ++ t1 ++ ... ++ vn ++ tn` where `v1 .. vn` are exactly the `Value` fields of the
stored tokens and every `ti` is a run of whitespace, line comments and block comments, the
last comment of `tn` possibly not closed. -/
theorem C1_round_trip (input : List Byte)
    (h : ∀ b ∈ input, b ≠ 0 ∧ (b.val < 128 ∨ isLetter b = true)) :
    ∃ l, Analyze (NewLexer input) = .ok l ∧ Splits (l.tokens.map Token.Value) input := by
  obtain ⟨l, hsc, ha, -⟩ := Analyze_scan input
  obtain ⟨toks, h1, h2⟩ := hsc.splits (by rw [NewLexer_input]; exact h)
  rw [NewLexer_tokens, List.nil_append] at h1
  rw [rest_NewLexer] at h2
  exact ⟨l, ha, by rw [h1]; exact h2⟩

/-- C1 (witness). The amended round trip at the input `a := /*c*/ 1; // z`. -/
theorem C1_round_trip_witness :
    (∀ b ∈ ascii "a := /*c*/ 1; // z", b ≠ 0 ∧ (b.val < 128 ∨ isLetter b = true)) ∧
    ∃ l, Analyze (NewLexer (ascii "a := /*c*/ 1; // z")) = .ok l ∧
      Splits (l.tokens.map Token.Value) (ascii "a := /*c*/ 1; // z") :=
  ⟨by decide, C1_round_trip (ascii "a := /*c*/ 1; // z") (by decide)⟩

theorem Scan.end_position {l l3 : Lexer} (h : Scan l l3) (hin : ∀ b ∈ l.input, b ≠ 0) :
    l.input.length < l3.position := by
  induction h with
  | @eof l hs ht h0 _ =>
    have hr := rest_nil_of_ch_zero ht.synced h0 (fun b hb => hin b (by rwa [ht.run_input] at hb))
    have hl := rest_length (skipTrivia l)
    rw [hr, ht.run_input] at hl
    simp only [List.length_nil] at hl
    rw [readChar_position, ht.synced.1]
    omega
  | @tok l l2 l3 tok w _ ht hx _ _ ih =>
    have hi2 : l2.input = l.input := by rw [hx.reads.input_eq, ht.run_input]
    rw [← hi2]
    exact ih (fun b hb => hin b (by rw [← hi2]; exact hb))

/-- C2 (counterexample). On the two bytes NUL, `a` the method `Analyze` returns with the
cursor at offset 1, before the end of the input: the byte `a` is never scanned. -/
theorem C2_consumes_input_counterexample :
    ∃ l, Analyze (NewLexer [0, 97]) = .ok l ∧ l.position = 1 ∧
      ¬ (l.position ≥ ([0, 97] : List Byte).length) :=
  ⟨_, rfl, rfl, by decide⟩

/-- C2 (amended). For every input without NUL byte, `NewLexer(input).Analyze()` returns with
the cursor at the physical end of the input: `position >= len(input)`, and no byte of the
input is left unscanned. -/
theorem C2_consumes_input (input : List Byte) (h : ∀ b ∈ input, b ≠ 0) :
    ∃ l, Analyze (NewLexer input) = .ok l ∧ l.position ≥ input.length ∧
      l.input = input ∧ l.input.drop l.position = [] := by
  obtain ⟨l, hsc, ha, -⟩ := Analyze_scan input
  have hp := hsc.end_position (by rw [NewLexer_input]; exact h)
  have hi := hsc.tokens_input.1
  rw [NewLexer_input] at hp hi
  refine ⟨l, ha, by omega, hi, ?_⟩
  rw [hi]
  exact List.drop_eq_nil_of_le (by omega)

/-- C2 (witness). The amended claim at the input `x := 1 and y;`. -/
theorem C2_consumes_input_witness :
    (∀ b ∈ ascii "x := 1 and y;", b ≠ 0) ∧
    ∃ l, Analyze (NewLexer (ascii "x := 1 and y;")) = .ok l ∧
      l.position ≥ (ascii "x := 1 and y;").length ∧
      l.input = ascii "x := 1 and y;" ∧ l.input.drop l.position = [] :=
  ⟨by decide, C2_consumes_input (ascii "x := 1 and y;") (by decide)⟩

/-- C3. Analysing `x := 1 and y;` stores exactly six tokens, Identifier `x` at (1,1),
Assignment `:=` at (1,3), Constant `1` at (1,6), And `and` at (1,8), Identifier `y` at (1,12)
and Semicolon `;` at (1,13), each with the display label of its kind, and the error list is
empty. -/
theorem C3_example_assignment :
    ∃ l, Analyze (NewLexer (ascii "x := 1 and y;")) = .ok l ∧
      l.tokens =
        [⟨TokIdentifier, ascii "x", 1, 1, "Идентификатор"⟩,
         ⟨TokAssignment, ascii ":=", 1, 3, "Присваивание"⟩,
         ⟨TokConstant, ascii "1", 1, 6, "Константа"⟩,
         ⟨TokAnd, ascii "and", 1, 8, "Ключевое слово (AND)"⟩,
         ⟨TokIdentifier, ascii "y", 1, 12, "Идентификатор"⟩,
         ⟨TokSemicolon, ascii ";", 1, 13, "Точка с запятой"⟩] ∧
      l.tokens.length = 6 ∧ l.errors = [] :=
  ⟨_, rfl, rfl, rfl, rfl⟩

theorem Scan.tokens_forall (P : Token → Prop)
    (hP : ∀ (l : Lexer) (tok : Token) (l2 : Lexer) (w : List Byte), Lexed l tok l2 w → P tok)
    {l l3 : Lexer} (h : Scan l l3) (h0 : ∀ t ∈ l.tokens, P t) : ∀ t ∈ l3.tokens, P t := by
  induction h with
  | @eof l _ ht _ _ =>
    rw [readChar_tokens, ht.run_tokens]; exact h0
  | @tok l l2 l3 tok w _ ht hx _ _ ih =>
    apply ih
    intro t hm
    have hm2 : t ∈ l2.tokens ++ [tok] := hm
    rw [hx.reads.tokens_eq, ht.run_tokens, List.mem_append, List.mem_singleton] at hm2
    rcases hm2 with hm2 | hm2
    · exact h0 t hm2
    · rw [hm2]; exact hP _ _ _ _ hx

theorem lookupKeyword_kind (s : List Byte) : identRuleKind (lookupKeyword s) := by
  unfold lookupKeyword identRuleKind
  split_ifs <;> simp

theorem Lexed.keyword {l l2 : Lexer} {tok : Token} {w : List Byte} (h : Lexed l tok l2 w) :
    (isLetter l.ch = true ∧ tok.Typ = lookupKeyword tok.Value) ∨
    (isLetter l.ch = false ∧ otherRuleKind tok.Typ) := by
  rcases h.kind with ⟨h1, -, -, h4, -⟩ | ⟨h1, h2, -, -, -⟩ | ⟨h1, -, -, h4⟩
  · right; exact ⟨h4, by simp [otherRuleKind, h1]⟩
  · left; exact ⟨h1, h2⟩
  · right
    refine ⟨h1, ?_⟩
    unfold otherRuleKind
    rcases h4 with h | h | h | h | h <;> simp [h]

theorem not_ident_of_other {k : TokenType} (h : otherRuleKind k) : ¬ identRuleKind k := by
  unfold otherRuleKind at h
  unfold identRuleKind
  rcases h with h | h | h | h | h | h <;> simp [h]

/-- C4. Keyword matching is exact and case-sensitive. `lookupKeyword` returns Or, Xor, And,
Not exactly on the byte strings `or`, `xor`, `and`, `not` and Identifier on every other
string. On a consistent cursor `NextToken` returns, after the trivia, a token of kind
`lookupKeyword(Value)` when the current character is a letter or underscore (the identifier
rule), and a token of another kind (Constant, Assignment, parenthesis, Semicolon, Error) or
the end-of-input token otherwise. So every token stored by `Analyze` whose kind is
Identifier, Or, Xor, And or Not was read by the identifier rule and has kind
`lookupKeyword(Value)`. The input `x or2 y` yields Identifier `x`, `or2`, `y`. -/
theorem C4_keyword_matching :
    (∀ s : List Byte,
      (lookupKeyword s = TokOr ↔ s = ascii "or") ∧
      (lookupKeyword s = TokXor ↔ s = ascii "xor") ∧
      (lookupKeyword s = TokAnd ↔ s = ascii "and") ∧
      (lookupKeyword s = TokNot ↔ s = ascii "not") ∧
      (lookupKeyword s = TokIdentifier ↔
        s ≠ ascii "or" ∧ s ≠ ascii "xor" ∧ s ≠ ascii "and" ∧ s ≠ ascii "not")) ∧
    (∀ l : Lexer, Synced l → ∃ tok l2, NextToken l = .ok (tok, l2) ∧
      (isLetter (skipTrivia l).ch = true → tok.Typ = lookupKeyword tok.Value) ∧
      (isLetter (skipTrivia l).ch = false → otherRuleKind tok.Typ ∨ tok.Typ = TokEOF)) ∧
    (∀ input : List Byte, ∃ l, Analyze (NewLexer input) = .ok l ∧
      ∀ t ∈ l.tokens, (identRuleKind t.Typ → t.Typ = lookupKeyword t.Value) ∧
        (identRuleKind t.Typ ∨ otherRuleKind t.Typ)) ∧
    lookupKeyword (ascii "or2") = TokIdentifier ∧ lookupKeyword (ascii "OR") = TokIdentifier ∧
    lookupKeyword (ascii "nota") = TokIdentifier ∧
    (∃ l, Analyze (NewLexer (ascii "x or2 y")) = .ok l ∧
      l.tokens.map (fun t => (t.Typ, t.Value)) =
        [(TokIdentifier, ascii "x"), (TokIdentifier, ascii "or2"), (TokIdentifier, ascii "y")]) := by
  refine ⟨?_, ?_, ?_, rfl, rfl, rfl, ⟨_, rfl, rfl⟩⟩
  · intro s
    have e1 : ascii "or" = [111, 114] := rfl
    have e2 : ascii "xor" = [120, 111, 114] := rfl
    have e3 : ascii "and" = [97, 110, 100] := rfl
    have e4 : ascii "not" = [110, 111, 116] := rfl
    rw [e1, e2, e3, e4]
    unfold lookupKeyword
    by_cases h1 : s = [111, 114]
    · subst h1; decide
    · by_cases h2 : s = [120, 111, 114]
      · subst h2; decide
      · by_cases h3 : s = [97, 110, 100]
        · subst h3; decide
        · by_cases h4 : s = [110, 111, 116]
          · subst h4; decide
          · simp [h1, h2, h3, h4]
  · intro l hs
    obtain ⟨-, ⟨h0, he⟩ | ⟨tok, l2, w, he, hx⟩⟩ := NextToken_spec hs
    · refine ⟨_, _, he, ?_, fun _ => Or.inr rfl⟩
      intro hl; rw [h0] at hl; exact absurd hl (by decide)
    · refine ⟨tok, l2, he, ?_, ?_⟩
      · intro hl
        rcases hx.keyword with ⟨-, h⟩ | ⟨h, -⟩
        · exact h
        · rw [h] at hl; exact absurd hl (by simp)
      · intro hl
        rcases hx.keyword with ⟨h, -⟩ | ⟨-, h⟩
        · rw [h] at hl; exact absurd hl (by simp)
        · exact Or.inl h
  · intro input
    obtain ⟨l, hsc, ha, -⟩ := Analyze_scan input
    refine ⟨l, ha, ?_⟩
    refine hsc.tokens_forall (fun t => (identRuleKind t.Typ → t.Typ = lookupKeyword t.Value) ∧
        (identRuleKind t.Typ ∨ otherRuleKind t.Typ)) ?_ (by simp)
    intro l tok l2 w hx
    rcases hx.keyword with ⟨-, h⟩ | ⟨-, h⟩
    · exact ⟨fun _ => h, Or.inl (by rw [h]; exact lookupKeyword_kind _)⟩
    · exact ⟨fun hi => absurd hi (not_ident_of_other h), Or.inr h⟩

/-- C4 (witness). The identifier rule at the input `or2`: the token read is the Identifier
`or2`, not the keyword `or`. -/
theorem C4_keyword_matching_witness :
    Synced (NewLexer (ascii "or2")) ∧ isLetter (skipTrivia (NewLexer (ascii "or2"))).ch = true ∧
    ∃ tok l2, NextToken (NewLexer (ascii "or2")) = .ok (tok, l2) ∧
      tok.Typ = lookupKeyword tok.Value := by
  refine ⟨synced_NewLexer _, rfl, ?_⟩
  obtain ⟨tok, l2, h1, h2, -⟩ := C4_keyword_matching.2.1 _ (synced_NewLexer (ascii "or2"))
  exact ⟨tok, l2, h1, h2 rfl⟩

theorem skipComment_false {l : Lexer}
    (h : ¬ (l.ch = 47 ∧ (peekChar l = 47 ∨ peekChar l = 42))) : skipComment l = (false, l) := by
  unfold skipComment
  split_ifs with h1 h2 h3
  · exact absurd ⟨h1, Or.inl h2⟩ h
  · exact absurd ⟨h1, Or.inr h3⟩ h
  · rfl
  · rfl

/-- Where the current character is no whitespace and opens no comment, the trivia-skipping
prefix of `NextToken` leaves the lexer alone (on every lexer state). -/
theorem skipTrivia_eq_self {l : Lexer} (h1 : isSpace l.ch = false)
    (h2 : ¬ (l.ch = 47 ∧ (peekChar l = 47 ∨ peekChar l = 42))) : skipTrivia l = l := by
  have hw : skipWhitespace l = l := readWhile_of_not isSpace _ h1
  unfold skipTrivia
  dsimp only
  rw [hw, commentLoop_loop, skipComment_false h2]

/-- The lone-colon rule and the assignment rule of the `switch`, on every lexer state. -/
theorem classify_colon (l : Lexer) (h : l.ch = 58) :
    (peekChar l ≠ 61 → classify l = .ok
      (⟨TokError, [58], l.line, l.column, "ОШИБКА"⟩,
        readChar { l with
          errors := l.errors ++ [errorMsg "Неожиданный символ ':'" l.line l.column] })) ∧
    (peekChar l = 61 → classify l = .ok
      (⟨TokAssignment, [58, 61], l.line, l.column, "Присваивание"⟩,
        readChar (readChar l))) := by
  constructor
  · intro hp
    unfold classify
    rw [if_pos h, if_neg hp]
    dsimp only [finish, makeError]
    rw [h]
    rfl
  · intro hp
    have hv : byteToString l.ch ++ byteToString (readChar l).ch = [58, 61] := by
      rw [h, ← peekChar_eq_readChar_ch, hp]; rfl
    unfold classify
    rw [if_pos h, if_pos hp]
    dsimp only [finish]
    rw [hv]
    rfl

/-- C5. A lone `:` is rejected without masking its neighbour. For every lexer whose current
character is `:`: when the next character is not `=`, `NextToken` returns an Error token
with Value `:` at the line and column of that `:`, appends the one message
`Неожиданный символ ':' (строка L, столбец C)` and calls `readChar` once (the cursor
advances by exactly one); when the next character is `=`, it returns an Assignment token
with Value `:=` and calls `readChar` twice (the cursor advances by exactly two). The input
`a :: b` yields Identifier `a`, Error `:` at (1,3), Error `:` at (1,4), Identifier `b`, with
two error messages. -/
theorem C5_lone_colon :
    (∀ l : Lexer, l.ch = 58 →
      (peekChar l ≠ 61 → ∃ tok l2, NextToken l = .ok (tok, l2) ∧
        tok = ⟨TokError, [58], l.line, l.column, "ОШИБКА"⟩ ∧
        l2.errors = l.errors ++ [errorMsg "Неожиданный символ ':'" l.line l.column] ∧
        l2 = readChar { l with errors := l2.errors } ∧
        l2.position = l.readPosition ∧ l2.readPosition = l.readPosition + 1) ∧
      (peekChar l = 61 → ∃ tok l2, NextToken l = .ok (tok, l2) ∧
        tok = ⟨TokAssignment, [58, 61], l.line, l.column, "Присваивание"⟩ ∧
        l2.errors = l.errors ∧ l2 = readChar (readChar l) ∧
        l2.position = l.readPosition + 1 ∧ l2.readPosition = l.readPosition + 2)) ∧
    (∃ l, Analyze (NewLexer (ascii "a :: b")) = .ok l ∧
      l.tokens =
        [⟨TokIdentifier, ascii "a", 1, 1, "Идентификатор"⟩,
         ⟨TokError, ascii ":", 1, 3, "ОШИБКА"⟩,
         ⟨TokError, ascii ":", 1, 4, "ОШИБКА"⟩,
         ⟨TokIdentifier, ascii "b", 1, 6, "Идентификатор"⟩] ∧
      l.errors = ["Неожиданный символ ':' (строка 1, столбец 3)",
        "Неожиданный символ ':' (строка 1, столбец 4)"]) := by
  refine ⟨?_, ⟨_, rfl, rfl, rfl⟩⟩
  intro l h
  have hst : skipTrivia l = l :=
    skipTrivia_eq_self (by rw [h]; decide) (fun hh => absurd (h.symm.trans hh.1) (by decide))
  have hn : NextToken l = classify l := by unfold NextToken; rw [hst]
  constructor
  · intro hp
    refine ⟨_, _, hn.trans ((classify_colon l h).1 hp), rfl, ?_, ?_, ?_, ?_⟩
    · rw [readChar_errors]
    · rw [readChar_errors]
    · rw [readChar_position]
    · rw [readChar_readPosition]
  · intro hp
    refine ⟨_, _, hn.trans ((classify_colon l h).2 hp), rfl, ?_, rfl, ?_, ?_⟩
    · rw [readChar_errors, readChar_errors]
    · rw [readChar_position, readChar_readPosition]
    · rw [readChar_readPosition, readChar_readPosition]

/-- C5 (witness). The lone-colon rule at the second colon of `::`, and the assignment rule
at `:=`. -/
theorem C5_lone_colon_witness :
    ((NewLexer (ascii ":: b")).ch = 58 ∧ peekChar (NewLexer (ascii ":: b")) ≠ 61 ∧
      ∃ tok l2, NextToken (NewLexer (ascii ":: b")) = .ok (tok, l2) ∧
        tok = ⟨TokError, [58], 1, 1, "ОШИБКА"⟩ ∧ l2.ch = 58 ∧ l2.position = 1) ∧
    ((NewLexer (ascii ":= b")).ch = 58 ∧ peekChar (NewLexer (ascii ":= b")) = 61 ∧
      ∃ tok l2, NextToken (NewLexer (ascii ":= b")) = .ok (tok, l2) ∧
        tok = ⟨TokAssignment, [58, 61], 1, 1, "Присваивание"⟩ ∧ l2.position = 2) := by
  refine ⟨⟨rfl, by decide, ?_⟩, ⟨rfl, rfl, ?_⟩⟩
  · obtain ⟨tok, l2, h1, h2, -, h4, h5, -⟩ :=
      (C5_lone_colon.1 (NewLexer (ascii ":: b")) rfl).1 (by decide)
    refine ⟨tok, l2, h1, h2, ?_, h5⟩
    rw [h4, readChar_ch]
    rfl
  · obtain ⟨tok, l2, h1, h2, -, -, h5, -⟩ :=
      (C5_lone_colon.1 (NewLexer (ascii ":= b")) rfl).2 rfl
    exact ⟨tok, l2, h1, h2, h5⟩

theorem takeWhile_ne_zero {a b : List Byte} (ha : (0 : Byte) ∉ a) (hb : b.headD 0 = 0) :
    (a ++ b).takeWhile (fun c => c != 0) = a := by
  induction a with
  | nil =>
    cases b with
    | nil => rfl
    | cons c b =>
      have hc : c = 0 := hb
      simp [hc]
  | cons c a ih =>
    have hc : c ≠ 0 := fun h => ha (by rw [h]; exact List.mem_cons_self _ _)
    have ha2 : (0 : Byte) ∉ a := fun h => ha (List.mem_cons_of_mem _ h)
    rw [List.cons_append, List.takeWhile_cons_of_pos (by simpa using hc), ih ha2]

/-- The first call of `NextToken` on an input that opens a block comment and never closes
it: the trivia-skipping prefix reads up to the first zero byte and appends the message, and
the `switch` returns the end-of-input token. -/
theorem open_comment_scan (s : List Byte) (h : NoClose s) :
    ∃ lb, Synced lb ∧ lb.ch = 0 ∧ lb.tokens = [] ∧
      lb.errors = [unterminatedMsg lb.line lb.column] ∧
      { readChar^[(s.takeWhile (fun c => c != 0)).length + 2] (NewLexer (47 :: 42 :: s)) with
        errors := lb.errors } = lb ∧
      skipTrivia (NewLexer (47 :: 42 :: s)) = lb := by
  have hs0 := synced_NewLexer (47 :: 42 :: s)
  have hr0 := rest_NewLexer (47 :: 42 :: s)
  have hc0 : (NewLexer (47 :: 42 :: s)).ch = 47 := hs0.ch_cons hr0
  have hp0 : peekChar (NewLexer (47 :: 42 :: s)) = 42 := by rw [hs0.peek, hr0]; rfl
  have ht0 : (NewLexer (47 :: 42 :: s)).tokens = [] := NewLexer_tokens _
  have hee : (NewLexer (47 :: 42 :: s)).errors = [] := NewLexer_errors _
  generalize NewLexer (47 :: 42 :: s) = l0 at hs0 hr0 hc0 hp0 ht0 hee ⊢
  have h2 := reads_two hs0 hc0 hp0 (by decide) (by decide)
  have hr2 : rest (readChar (readChar l0)) = s := by
    have := h2.split
    rw [hr0] at this
    simpa using this.symm
  have hsc : skipComment l0 = (true, blockLoop (loopFuel (readChar (readChar l0)))
      (readChar (readChar l0))) := by
    simp [skipComment, hc0, hp0]
  have he0 : (readChar (readChar l0)).errors = [] := by
    rw [readChar_errors, readChar_errors, hee]
  rcases blockLoop_reads (loopFuel (readChar (readChar l0))) (readChar (readChar l0))
    h2.synced (rest_length_le_fuel h2.synced) with
    ⟨s1, -, -, r1, -⟩ | ⟨s1, -, hz, r1, hch, herr⟩
  · exfalso
    have := r1.split
    rw [hr2] at this
    apply h
    rw [this]
    exact ⟨s1, _, rfl⟩
  · generalize blockLoop (loopFuel (readChar (readChar l0))) (readChar (readChar l0)) = lb
      at hsc r1 hch herr
    have hw0 : skipWhitespace l0 = l0 := readWhile_of_not isSpace _ (by rw [hc0]; decide)
    have hwb : skipWhitespace lb = lb := readWhile_of_not isSpace _ (by rw [hch]; decide)
    have hst : skipTrivia l0 = lb := by
      unfold skipTrivia
      dsimp only
      rw [hw0, commentLoop_loop, hsc]
      dsimp only
      rw [hwb, commentLoop_loop,
        skipComment_false (fun hh => absurd (hch.symm.trans hh.1) (by decide))]
    have hlen : (s.takeWhile (fun c => c != 0)).length = s1.length := by
      have := r1.split
      rw [hr2] at this
      rw [this, takeWhile_ne_zero hz (by rw [← r1.synced.2]; exact hch)]
    have hcur : { readChar^[(s.takeWhile (fun c => c != 0)).length + 2] l0 with
        errors := lb.errors } = lb := by
      rw [hlen, Function.iterate_add_apply]
      exact r1.cursor
    refine ⟨lb, r1.synced, hch, ?_, ?_, hcur, hst⟩
    · rw [r1.tokens_eq, h2.tokens_eq, ht0]
    · rw [herr, he0, List.nil_append]

/-- C6. Unterminated block comment. For every byte string `s` that does not contain `*/`,
analysing `/*` followed by `s` returns, stores zero tokens and produces exactly one error
message, the unterminated-comment message; it carries the line and column of the cursor at
the point where the end of input was detected, that is after reading the opening marker and
the bytes of `s` before its first zero byte (all of `s` when `s` has no NUL byte). -/
theorem C6_unterminated_comment (s : List Byte) (h : ¬ ([42, 47] : List Byte) <:+: s) :
    ∃ l, Analyze (NewLexer (47 :: 42 :: s)) = .ok l ∧ l.tokens = [] ∧
      l.errors.length = 1 ∧
      l.errors =
        [unterminatedMsg
          (readChar^[(s.takeWhile (fun c => c != 0)).length + 2] (NewLexer (47 :: 42 :: s))).line
          (readChar^[(s.takeWhile (fun c => c != 0)).length + 2]
            (NewLexer (47 :: 42 :: s))).column] ∧
      ((∀ b ∈ s, b ≠ 0) → (s.takeWhile (fun c => c != 0)).length + 2 =
        (47 :: 42 :: s : List Byte).length) := by
  obtain ⟨lb, hsy, hch, htok, herr, hcur, hst⟩ := open_comment_scan s h
  have hline := congrArg Lexer.line hcur
  have hcol := congrArg Lexer.column hcur
  dsimp only at hline hcol
  have hcl : classify lb = .ok (eofToken lb.line lb.column, readChar lb) := by
    rcases classify_spec hsy with ⟨-, he⟩ | ⟨tok, l2, w, -, hx⟩
    · exact he
    · exact absurd hch hx.ch_ne
  have hn : NextToken (NewLexer (47 :: 42 :: s)) =
      .ok (eofToken lb.line lb.column, readChar lb) := by
    unfold NextToken; rw [hst, hcl]
  have hf : loopFuel (NewLexer (47 :: 42 :: s)) =
      (loopFuel (NewLexer (47 :: 42 :: s)) - 1) + 1 := by unfold loopFuel; omega
  have ha : Analyze (NewLexer (47 :: 42 :: s)) = .ok (readChar lb) := by
    unfold Analyze
    rw [hf, analyzeLoop, hn]
    simp [eofToken]
  refine ⟨readChar lb, ha, by rw [readChar_tokens, htok], by rw [readChar_errors, herr]; rfl,
    by rw [readChar_errors, herr, hline, hcol], ?_⟩
  intro hnz
  have : s.takeWhile (fun c => c != 0) = s := by
    rw [List.takeWhile_eq_self_iff]
    intro b hb
    simpa using hnz b hb
  rw [this]
  rfl

/-- C6 (witness). The input `/* unterminated` yields zero tokens and exactly one error, the
unterminated-comment message at line 1, column 16. -/
theorem C6_unterminated_comment_witness :
    (¬ ([42, 47] : List Byte) <:+: ascii " unterminated") ∧
    ∃ l, Analyze (NewLexer (ascii "/* unterminated")) = .ok l ∧ l.tokens = [] ∧
      l.errors.length = 1 ∧
      l.errors = ["Незакрытый комментарий (строка 1, столбец 16)"] := by
  have hno : ¬ ([42, 47] : List Byte) <:+: ascii " unterminated" := by decide
  obtain ⟨l, h1, h2, h3, h4, -⟩ := C6_unterminated_comment (ascii " unterminated") hno
  exact ⟨hno, l, h1, h2, h3, h4⟩

/-- C7 (counterexample). For the empty input text the result built by `analyzeHandler` has
one error message and `HasErrors = true`: the handler returns early, without running the
lexer. -/
theorem C7_empty_input_counterexample :
    ∃ r, analyzeResult [] = .ok r ∧ r.Errors.length = 1 ∧ r.HasErrors = true ∧
      ¬ (r.Tokens.length = 0 ∧ r.Errors.length = 0 ∧ r.HasErrors = false) :=
  ⟨_, rfl, rfl, rfl, by decide⟩

/-- C7 (amended). For the empty input text the result built by `analyzeHandler` has zero
tokens, exactly one error message, `Введите текст для анализа`, and `HasErrors = true`; the
lexer itself, run on the empty input, stores zero tokens and zero error messages. -/
theorem C7_empty_input :
    analyzeResult [] = .ok
      { Tokens := [], Errors := ["Введите текст для анализа"], HasErrors := true,
        InputText := [], TokenCount := 0, SuccessCount := 0, ErrorCount := 0 } ∧
    ∃ l, Analyze (NewLexer []) = .ok l ∧ l.tokens = [] ∧ l.errors = [] :=
  ⟨rfl, _, rfl, rfl, rfl⟩

theorem nextTokens_setTokens (ts : List Token) :
    ∀ (n : Nat) (l : Lexer), nextTokens n (setTokens ts l) = nextTokens n l := by
  intro n
  induction n with
  | zero => intro l; rfl
  | succ n ih =>
    intro l
    simp only [nextTokens, NextToken_setTokens]
    generalize NextToken l = r
    rcases r with e | ⟨tok, l1⟩
    · rfl
    · simp only [withTokens, ih]

theorem Scan.calls {l l3 : Lexer} (h : Scan l l3) :
    ∃ toks eof, l3.tokens = l.tokens ++ toks ∧
      nextTokens (toks.length + 1) l = toks ++ [eof] ∧
      eof.Typ = TokEOF ∧ eof.Value = [] ∧ (∀ t ∈ toks, t.Typ ≠ TokEOF) ∧
      analyzeLoop (toks.length + 1) l = .ok l3 ∧
      analyzeLoop toks.length l = .error Fault.outOfFuel := by
  induction h with
  | @eof l _ ht _ he =>
    refine ⟨[], eofToken (skipTrivia l).line (skipTrivia l).column,
      by rw [readChar_tokens, ht.run_tokens]; simp, ?_, rfl, rfl, by simp,
      analyzeLoop_eof he 0, rfl⟩
    show nextTokens 1 l = _
    rw [nextTokens, he]
    rfl
  | @tok l l2 l3 tok w _ ht hx he _ ih =>
    obtain ⟨toks, eof, h1, h2, h3, h4, h5, h6, h7⟩ := ih
    have hset : ({ l2 with tokens := l2.tokens ++ [tok] } : Lexer) =
        setTokens (l2.tokens ++ [tok]) l2 := rfl
    rw [hset, nextTokens_setTokens] at h2
    refine ⟨tok :: toks, eof, ?_, ?_, h3, h4, ?_, ?_, ?_⟩
    · rw [h1]
      show (l2.tokens ++ [tok]) ++ toks = _
      rw [hx.reads.tokens_eq, ht.run_tokens]; simp
    · rw [List.length_cons, nextTokens, he]
      dsimp only
      rw [h2]
      rfl
    · intro t hm
      rcases List.mem_cons.mp hm with hm | hm
      · rw [hm]; exact hx.notEOF
      · exact h5 t hm
    · rw [List.length_cons, analyzeLoop_tok he hx.notEOF]; exact h6
    · rw [List.length_cons, analyzeLoop_tok he hx.notEOF]; exact h7

/-- C8. For every input, `Analyze` returns and the token sequence it stores is exactly the
sequence of `NextToken` results up to and excluding the first end-of-input token: with `k`
stored tokens, the first `k + 1` results of `NextToken` are the stored tokens, none of kind
`TokEOF`, followed by one token of kind `TokEOF` with empty text, and the loop of `Analyze`
ends after exactly `k + 1` calls. -/
theorem C8_stored_tokens (input : List Byte) :
    ∃ l eof, Analyze (NewLexer input) = .ok l ∧
      nextTokens (l.tokens.length + 1) (NewLexer input) = l.tokens ++ [eof] ∧
      eof.Typ = TokEOF ∧ eof.Value = [] ∧ (∀ t ∈ l.tokens, t.Typ ≠ TokEOF) ∧
      analyzeLoop (l.tokens.length + 1) (NewLexer input) = .ok l ∧
      analyzeLoop l.tokens.length (NewLexer input) = .error Fault.outOfFuel := by
  obtain ⟨l, hsc, ha, -⟩ := Analyze_scan input
  obtain ⟨toks, eof, h1, h2, h3, h4, h5, h6, h7⟩ := hsc.calls
  rw [NewLexer_tokens, List.nil_append] at h1
  rw [← h1] at h2 h5 h6 h7
  exact ⟨l, eof, ha, h2, h3, h4, h5, h6, h7⟩

/-- The unexpected-character rule of the `switch`, on every lexer state: for a current
character that is none of `:`, `(`, `)`, `;`, `0`, `1`, the zero byte, a letter or an
underscore, the token is an Error token whose text is the conversion `string(ch)`, one
message is appended, and `readChar` is called once. -/
theorem classify_unexpected (l : Lexer) (h58 : l.ch ≠ 58) (h40 : l.ch ≠ 40) (h41 : l.ch ≠ 41)
    (h59 : l.ch ≠ 59) (h48 : l.ch ≠ 48) (h49 : l.ch ≠ 49) (h0 : l.ch ≠ 0)
    (hl : isLetter l.ch = false) :
    classify l = .ok
      (⟨TokError, byteToString l.ch, l.line, l.column, "ОШИБКА"⟩,
        readChar { l with
          errors := l.errors ++ [errorMsg (unexpectedMsg l.ch) l.line l.column] }) := by
  unfold classify
  rw [if_neg h58, if_neg h40, if_neg h41, if_neg h59, if_neg h48, if_neg h49, if_neg h0,
    if_neg (by rw [hl]; simp)]
  rfl

/-- C9 (failing input). On the input of the two bytes 0xD1 0x8F (the UTF-8 encoding of the
Cyrillic letter `я`) the second call of `NextToken` finds the current character 0x8F, which
is none of `:`, `(`, `)`, `;`, `0`, `1`, the zero byte, a letter or an underscore, and
returns an Error token whose Value is the two bytes 0xC2 0x8F, not the one input byte
0x8F. -/
theorem C9_unexpected_character_high_byte :
    ∃ tok1 l1 tok2 l2, NextToken (NewLexer [209, 143]) = .ok (tok1, l1) ∧
      l1.ch = 143 ∧ skipTrivia l1 = l1 ∧ isLetter l1.ch = false ∧
      NextToken l1 = .ok (tok2, l2) ∧ tok2.Typ = TokError ∧
      tok2.Value = [194, 143] ∧ tok2.Value ≠ [l1.ch] ∧
      ∃ l, Analyze (NewLexer [209, 143]) = .ok l ∧
        l.tokens = [⟨TokIdentifier, [209], 1, 1, "Идентификатор"⟩,
          ⟨TokError, [194, 143], 1, 2, "ОШИБКА"⟩] :=
  ⟨_, _, _, _, rfl, rfl, rfl, rfl, rfl, rfl, rfl, by decide, _, rfl, rfl⟩

theorem TriviaRun.run_position {a b : Lexer} (h : TriviaRun a b) (ha : Synced a) :
    a.position ≤ b.position := by
  rcases h with ⟨_, _, h, _⟩ | ⟨_, _, h, _⟩
  · have := h.position_eq ha; omega
  · have := h.position_eq ha; omega

/-- On a consistent cursor every call of `NextToken` returns and moves the cursor forward by
at least one byte; a call that returns a token other than end-of-input starts before the
end of the input. -/
theorem NextToken_progress {l : Lexer} (hs : Synced l) :
    ∃ tok l2, NextToken l = .ok (tok, l2) ∧ Synced l2 ∧ l2.input = l.input ∧
      l.position < l2.position ∧ (tok.Typ ≠ TokEOF → l.position < l.input.length) := by
  obtain ⟨ht, ⟨h0, he⟩ | ⟨tok, l2, w, he, hx⟩⟩ := NextToken_spec hs
  · refine ⟨_, _, he, synced_readChar _, by rw [readChar_input, ht.run_input], ?_,
      fun h => absurd rfl h⟩
    have := ht.run_position hs
    rw [readChar_position, ht.synced.1]
    omega
  · refine ⟨tok, l2, he, hx.reads.synced, by rw [hx.reads.input_eq, ht.run_input], ?_, fun _ => ?_⟩
    · have h1 := ht.run_position hs
      have h2 := hx.reads.position_eq ht.synced
      have h3 := List.length_pos.mpr hx.nonempty
      omega
    · have h1 := ht.rest_length_le
      have h2 := hx.reads.rest_length_eq
      have h3 := List.length_pos.mpr hx.nonempty
      have h4 := rest_length l
      omega

/-- C10. Termination. For every input, `NewLexer(input).Analyze()` returns, and the loop of
`Analyze` returns the same lexer with any budget of at least `len(input) + 1` calls of
`NextToken`. On a consistent cursor every call of `NextToken` returns and moves the cursor
forward by at least one byte, and a call that does not return end-of-input starts before the
end of the input. The loops inside `NextToken` (whitespace, line comment, block comment,
comment sequence, identifier) terminate: on every lexer state they satisfy the unfolding
equation of the Go loop. -/
theorem C10_termination :
    (∀ input : List Byte, ∃ l, Analyze (NewLexer input) = .ok l ∧
      ∀ n, input.length + 1 ≤ n → analyzeLoop n (NewLexer input) = .ok l) ∧
    (∀ l : Lexer, Synced l → ∃ tok l2, NextToken l = .ok (tok, l2) ∧ Synced l2 ∧
      l2.input = l.input ∧ l.position < l2.position ∧
      (tok.Typ ≠ TokEOF → l.position < l.input.length)) ∧
    (∀ l : Lexer, skipWhitespace l =
      if isSpace l.ch then skipWhitespace (readChar l) else l) ∧
    (∀ l : Lexer, readWhile inLineComment (loopFuel l) l =
      if inLineComment l.ch then readWhile inLineComment (loopFuel (readChar l)) (readChar l)
      else l) ∧
    (∀ l : Lexer, blockLoop (loopFuel l) l =
      if l.ch = 0 then { l with errors := l.errors ++ [unterminatedMsg l.line l.column] }
      else if l.ch = 42 ∧ peekChar l = 47 then readChar (readChar l)
      else blockLoop (loopFuel (readChar l)) (readChar l)) ∧
    (∀ l : Lexer, commentLoop (loopFuel l) l =
      match skipComment l with
      | (true, l1) => commentLoop (loopFuel (skipWhitespace l1)) (skipWhitespace l1)
      | (false, l1) => l1) ∧
    (∀ l : Lexer, readWhile isIdentByte (loopFuel l) l =
      if isIdentByte l.ch then readWhile isIdentByte (loopFuel (readChar l)) (readChar l)
      else l) := by
  refine ⟨?_, fun l hs => NextToken_progress hs, skipWhitespace_loop,
    readWhile_loop inLineComment (by decide), blockLoop_loop, commentLoop_loop,
    readWhile_loop isIdentByte isIdentByte_zero⟩
  intro input
  obtain ⟨l, -, ha, hn⟩ := Analyze_scan input
  exact ⟨l, ha, hn⟩

/-- C10 (witness). On the consistent cursor of `NewLexer("x;")` the first call of
`NextToken` returns and moves the cursor forward. -/
theorem C10_termination_witness :
    Synced (NewLexer (ascii "x;")) ∧
    ∃ tok l2, NextToken (NewLexer (ascii "x;")) = .ok (tok, l2) ∧ Synced l2 ∧
      l2.input = (NewLexer (ascii "x;")).input ∧
      (NewLexer (ascii "x;")).position < l2.position ∧
      (tok.Typ ≠ TokEOF → (NewLexer (ascii "x;")).position < (NewLexer (ascii "x;")).input.length) :=
  ⟨synced_NewLexer _, C10_termination.2.1 (NewLexer (ascii "x;")) (synced_NewLexer _)⟩

/-! ## Run-time safety and identifiers -/

theorem index_of_lt (s : List Byte) (i : Nat) (h : ¬ i ≥ s.length) :
    index s i = some (s.getD i 0) := by
  have hi : i < s.length := by omega
  simp [index, List.getD, List.getElem?_eq_getElem hi]

theorem readCharChecked_eq (l : Lexer) : readCharChecked l = some (readChar l) := by
  unfold readCharChecked readChar
  by_cases h : l.readPosition ≥ l.input.length
  · simp only [if_pos h]
    split_ifs <;> rfl
  · simp only [if_neg h, index_of_lt _ _ h]
    split_ifs <;> rfl

theorem peekCharChecked_eq (l : Lexer) : peekCharChecked l = some (peekChar l) := by
  unfold peekCharChecked peekChar
  by_cases h : l.readPosition ≥ l.input.length
  · simp only [if_pos h]
  · simp only [if_neg h, index_of_lt _ _ h]

theorem isLetter_ne {l : Lexer} (hl : isLetter l.ch = true) :
    l.ch ≠ 58 ∧ l.ch ≠ 40 ∧ l.ch ≠ 41 ∧ l.ch ≠ 59 ∧ l.ch ≠ 48 ∧ l.ch ≠ 49 ∧ l.ch ≠ 0 := by
  refine ⟨?_, ?_, ?_, ?_, ?_, ?_, ?_⟩ <;>
    · intro h
      rw [h] at hl
      revert hl
      decide

/-- The identifier rule of the `switch`, on every lexer state whose current character is a
letter or an underscore. -/
theorem classify_letter (l : Lexer) (hl : isLetter l.ch = true) :
    classify l =
      match readIdentifier l with
      | .ok (identifier, l1) =>
        .ok (⟨lookupKeyword identifier, identifier, l.line, l.column,
          getTokenTypeName (lookupKeyword identifier)⟩, l1)
      | .error e => .error e := by
  obtain ⟨h58, h40, h41, h59, h48, h49, h0⟩ := isLetter_ne hl
  unfold classify
  rw [if_neg h58, if_neg h40, if_neg h41, if_neg h59, if_neg h48, if_neg h49, if_neg h0,
    if_pos hl]

/-- The slice taken by `readIdentifier` on a consistent cursor at a letter is within
bounds. -/
theorem readIdentifier_bounds {l : Lexer} (hs : Synced l) (hl : isLetter l.ch = true) :
    ∃ s l1, readIdentifier l = .ok (s, l1) ∧ l.position ≤ l1.position ∧
      l1.position ≤ l1.input.length := by
  obtain ⟨h1, h2, -, -⟩ := readIdentifier_spec hs hl
  refine ⟨_, _, h1, ?_, ?_⟩
  · have := h2.position_eq hs; omega
  · have hp := h2.position_eq hs
    have hr := h2.rest_length_eq
    have hl1 := rest_length l
    have hin := h2.input_eq
    have h0 : l.ch ≠ 0 := (isLetter_ne hl).2.2.2.2.2.2
    have hne := hs.rest_of_ch_ne h0
    have hpos : 1 ≤ (rest l).length := by rw [hne]; simp
    rw [hin]
    omega

/-- C11. No fatal failure. The index expressions of `readChar` and `peekChar` never panic,
on any lexer state: the checked methods always return, with the result of the model. For
every input `NewLexer(input).Analyze()` returns without a run-time failure. Every slice
`input[startPos:position]` that `readIdentifier` takes on a consistent cursor at a letter or
underscore (the only way `NextToken` calls it) satisfies
`startPos <= position <= len(input)`. -/
theorem C11_no_fatal_failure :
    (∀ l : Lexer, readCharChecked l = some (readChar l)) ∧
    (∀ l : Lexer, peekCharChecked l = some (peekChar l)) ∧
    (∀ input : List Byte, ∃ l, Analyze (NewLexer input) = .ok l) ∧
    (∀ l : Lexer, Synced l → ∃ tok l2, NextToken l = .ok (tok, l2) ∧ Synced l2) ∧
    (∀ l : Lexer, Synced l → isLetter l.ch = true →
      ∃ s l1, readIdentifier l = .ok (s, l1) ∧ l.position ≤ l1.position ∧
        l1.position ≤ l1.input.length) := by
  refine ⟨readCharChecked_eq, peekCharChecked_eq, ?_, ?_, fun l hs hl =>
    readIdentifier_bounds hs hl⟩
  · intro input
    obtain ⟨l, -, ha, -⟩ := Analyze_scan input
    exact ⟨l, ha⟩
  · intro l hs
    obtain ⟨tok, l2, h1, h2, -⟩ := NextToken_progress hs
    exact ⟨tok, l2, h1, h2⟩

/-- C11 (witness). The slice bounds at the identifier `ab` of the input `ab;`. -/
theorem C11_no_fatal_failure_witness :
    Synced (NewLexer (ascii "ab;")) ∧ isLetter (NewLexer (ascii "ab;")).ch = true ∧
    ∃ s l1, readIdentifier (NewLexer (ascii "ab;")) = .ok (s, l1) ∧
      (NewLexer (ascii "ab;")).position ≤ l1.position ∧ l1.position ≤ l1.input.length :=
  ⟨synced_NewLexer _, rfl,
    C11_no_fatal_failure.2.2.2.2 (NewLexer (ascii "ab;")) (synced_NewLexer _) rfl⟩

theorem length_le_takeWhile (f : Byte → Bool) :
    ∀ (p t r : List Byte), r = p ++ t → (∀ b ∈ p, f b = true) →
      p.length ≤ (r.takeWhile f).length := by
  intro p
  induction p with
  | nil => intro t r _ _; simp
  | cons c p ih =>
    intro t r hr hp
    subst hr
    have hc : f c = true := hp c (List.mem_cons_self _ _)
    rw [List.cons_append, List.takeWhile_cons_of_pos hc]
    simp only [List.length_cons, Nat.add_le_add_iff_right]
    exact ih t _ rfl (fun b hb => hp b (List.mem_cons_of_mem _ hb))

/-- C12. Maximal munch for identifiers. For every lexer with a consistent cursor whose
current character after trivia skipping is a letter or underscore, `NextToken` returns a
token whose Value is the longest run of letters, digits and underscores that starts the
remaining input: it is non-empty, it is made of such bytes only, the remaining input is the
Value followed by the input left after the call, no longer run of such bytes starts the
remaining input, and after the call the current character is not a letter, digit or
underscore. -/
theorem C12_maximal_munch (l : Lexer) (hs : Synced l)
    (hl : isLetter (skipTrivia l).ch = true) :
    ∃ tok l2, NextToken l = .ok (tok, l2) ∧
      tok.Value = (rest (skipTrivia l)).takeWhile isIdentByte ∧ tok.Value ≠ [] ∧
      rest (skipTrivia l) = tok.Value ++ rest l2 ∧
      (∀ b ∈ tok.Value, isLetter b = true ∨ isDigit b = true) ∧
      (∀ p t, rest (skipTrivia l) = p ++ t → (∀ b ∈ p, isLetter b = true ∨ isDigit b = true) →
        p.length ≤ tok.Value.length) ∧
      (isLetter l2.ch = false ∧ isDigit l2.ch = false) ∧ Synced l2 ∧
      tok.Typ = lookupKeyword tok.Value ∧ l2.errors = l.errors := by
  have hs1 : Synced (skipTrivia l) := (skipTrivia_reads hs).synced
  obtain ⟨h1, h2, h3, h4⟩ := readIdentifier_spec hs1 hl
  obtain ⟨-, -, h5⟩ := readWhile_reads isIdentByte isIdentByte_zero (loopFuel (skipTrivia l))
    (skipTrivia l) hs1 (by have := rest_length_le_fuel hs1; omega)
  have he : l.errors = (skipTrivia l).errors := by
    rcases skipTrivia_reads hs with ⟨_, _, _, h⟩ | ⟨_, _, _, h0, _⟩
    · exact h.symm
    · rw [h0] at hl; exact absurd hl (by decide)
  refine ⟨⟨lookupKeyword ((rest (skipTrivia l)).takeWhile isIdentByte),
      (rest (skipTrivia l)).takeWhile isIdentByte, (skipTrivia l).line, (skipTrivia l).column,
      getTokenTypeName (lookupKeyword ((rest (skipTrivia l)).takeWhile isIdentByte))⟩,
    _, ?_, rfl, h4, h2.split, ?_, ?_, ?_, h2.synced, rfl, by rw [h3, he]⟩
  · show classify (skipTrivia l) = _
    rw [classify_letter _ hl, h1]
  · intro b hb
    have := List.mem_takeWhile_imp hb
    simpa [isIdentByte] using this
  · intro p t hp hall
    exact length_le_takeWhile isIdentByte p t _ hp
      (fun b hb => by simpa [isIdentByte] using hall b hb)
  · simpa [isIdentByte] using h5

/-- C12 (witness). Maximal munch at the input `  or2 y`: the token text is `or2`. -/
theorem C12_maximal_munch_witness :
    Synced (NewLexer (ascii "  or2 y")) ∧
    isLetter (skipTrivia (NewLexer (ascii "  or2 y"))).ch = true ∧
    ∃ tok l2, NextToken (NewLexer (ascii "  or2 y")) = .ok (tok, l2) ∧
      tok.Value = ascii "or2" ∧ l2.ch = 32 := by
  refine ⟨synced_NewLexer _, rfl, ?_⟩
  obtain ⟨tok, l2, h1, h2, -⟩ :=
    C12_maximal_munch (NewLexer (ascii "  or2 y")) (synced_NewLexer _) rfl
  have h3 : NextToken (NewLexer (ascii "  or2 y")) =
      .ok (⟨TokIdentifier, ascii "or2", 1, 3, "Идентификатор"⟩,
        readChar^[5] (NewLexer (ascii "  or2 y"))) := rfl
  rw [h3] at h1
  cases h1
  exact ⟨_, _, h3, rfl, rfl⟩

/-! ## Line and column -/

/-- A call of `readChar` on a newline starts a new line at column 0; on any other byte it
stays on the line and adds one to the column. -/
theorem readChar_line_column (l : Lexer) :
    ((readChar l).ch = 10 ∧ (readChar l).line = l.line + 1 ∧ (readChar l).column = 0) ∨
    ((readChar l).ch ≠ 10 ∧ (readChar l).line = l.line ∧
      (readChar l).column = l.column + 1) := by
  unfold readChar
  dsimp only
  split_ifs with h1 h2 h3
  · exact Or.inl ⟨by assumption, rfl, rfl⟩
  · exact Or.inr ⟨by assumption, rfl, rfl⟩
  · exact Or.inl ⟨by assumption, rfl, rfl⟩
  · exact Or.inr ⟨by assumption, rfl, rfl⟩

theorem headD_drop_of_lt (s : List Byte) (k : Nat) (h : k < s.length) :
    s[k]? = some ((s.drop k).headD 0) := by
  rw [List.headD_eq_head?_getD, List.head?_drop, List.getElem?_eq_getElem h]
  rfl

/-- The cursor after `k` calls of `readChar` on the initial lexer, for `k` up to the length
of the input: line and column are determined by the `k` bytes read. -/
theorem cursor_after (input : List Byte) :
    ∀ k, k ≤ input.length →
      (readChar^[k] (initLexer input)).input = input ∧
      (readChar^[k] (initLexer input)).readPosition = k ∧
      (readChar^[k] (initLexer input)).line = 1 + (input.take k).count 10 ∧
      (readChar^[k] (initLexer input)).column =
        ((input.take k).reverse.takeWhile (fun b => b != 10)).length := by
  intro k
  induction k with
  | zero => intro _; exact ⟨rfl, rfl, rfl, rfl⟩
  | succ k ih =>
    intro hk
    obtain ⟨h1, h2, h3, h4⟩ := ih (by omega)
    have hlt : k < input.length := by omega
    rw [Function.iterate_succ_apply']
    generalize readChar^[k] (initLexer input) = l at h1 h2 h3 h4
    have hch : input[k]? = some (readChar l).ch := by
      rw [readChar_ch, h1, h2]; exact headD_drop_of_lt input k hlt
    have htake : input.take (k + 1) = input.take k ++ [(readChar l).ch] := by
      rw [List.take_succ, hch]; rfl
    refine ⟨by rw [readChar_input, h1], by rw [readChar_readPosition, h2], ?_, ?_⟩
    · rw [htake, List.count_append]
      rcases readChar_line_column l with ⟨e1, e2, -⟩ | ⟨e1, e2, -⟩
      · rw [e2, h3, e1]; simp; omega
      · rw [e2, h3]
        have : List.count 10 [(readChar l).ch] = 0 := by
          simp [List.count_singleton]
          exact fun h => e1 h
        omega
    · rw [htake, List.reverse_append]
      rcases readChar_line_column l with ⟨e1, -, e3⟩ | ⟨e1, -, e3⟩
      · rw [e3, e1]; simp
      · rw [e3, h4]
        simp [List.takeWhile_cons, e1]

/-- C13. Cursor position invariant. For every input and every `n < len(input)`, after
`NewLexer(input)` followed by `n` calls of `readChar` the lexer has `position = n` and
`ch = input[n]`; and if that byte is not a newline then `line` is one more than the number
of newline bytes in `input[0..n)` and `column` is one more than the number of bytes between
the last newline before offset `n` (or the start of the input) and offset `n`. In particular
a first character that is not a newline is at (1,1), and a character other than a newline
that immediately follows a newline has column 1. -/
theorem C13_cursor_position (input : List Byte) :
    (∀ n, n < input.length →
      (readChar^[n] (NewLexer input)).position = n ∧
      input[n]? = some (readChar^[n] (NewLexer input)).ch ∧
      ((readChar^[n] (NewLexer input)).ch ≠ 10 →
        (readChar^[n] (NewLexer input)).line = lineAt input n ∧
        (readChar^[n] (NewLexer input)).column = columnAt input n)) ∧
    (0 < input.length → (NewLexer input).ch ≠ 10 →
      (NewLexer input).line = 1 ∧ (NewLexer input).column = 1) ∧
    (∀ n, n + 1 < input.length → (readChar^[n] (NewLexer input)).ch = 10 →
      (readChar^[n + 1] (NewLexer input)).ch ≠ 10 →
      (readChar^[n + 1] (NewLexer input)).column = 1) := by
  have main : ∀ n, n < input.length →
      (readChar^[n] (NewLexer input)).position = n ∧
      input[n]? = some (readChar^[n] (NewLexer input)).ch ∧
      ((readChar^[n] (NewLexer input)).ch ≠ 10 →
        (readChar^[n] (NewLexer input)).line = lineAt input n ∧
        (readChar^[n] (NewLexer input)).column = columnAt input n) := by
    intro n hn
    obtain ⟨h1, h2, h3, h4⟩ := cursor_after input n (by omega)
    have e : readChar^[n] (NewLexer input) = readChar (readChar^[n] (initLexer input)) := by
      show readChar^[n] (readChar (initLexer input)) = _
      rw [← Function.iterate_succ_apply, Function.iterate_succ_apply']
    rw [e]
    generalize readChar^[n] (initLexer input) = l at h1 h2 h3 h4
    have hch : input[n]? = some (readChar l).ch := by
      rw [readChar_ch, h1, h2]; exact headD_drop_of_lt input n hn
    refine ⟨by rw [readChar_position, h2], hch, ?_⟩
    intro hne
    rcases readChar_line_column l with ⟨e1, -, -⟩ | ⟨-, e2, e3⟩
    · exact absurd e1 hne
    · exact ⟨by rw [e2, h3]; rfl, by rw [e3, h4]; unfold columnAt; omega⟩
  refine ⟨main, ?_, ?_⟩
  · intro h0 hne
    have := (main 0 h0).2.2 hne
    exact ⟨this.1, this.2⟩
  · intro n _ h10 hne
    have e : readChar^[n] (NewLexer input) = readChar (readChar^[n] (initLexer input)) := by
      show readChar^[n] (readChar (initLexer input)) = _
      rw [← Function.iterate_succ_apply, Function.iterate_succ_apply']
    have hc0 : (readChar^[n] (NewLexer input)).column = 0 := by
      rw [e] at h10 ⊢
      rcases readChar_line_column (readChar^[n] (initLexer input)) with ⟨-, -, e3⟩ | ⟨e1, -, -⟩
      · exact e3
      · exact absurd h10 e1
    rw [Function.iterate_succ_apply'] at hne ⊢
    rcases readChar_line_column (readChar^[n] (NewLexer input)) with ⟨e1, -, -⟩ | ⟨-, -, e3⟩
    · exact absurd e1 hne
    · rw [e3, hc0]

/-- C13 (witness). On the input `a`, newline, `b` the byte at offset 2 is at line 2,
column 1. -/
theorem C13_cursor_position_witness :
    2 < ([97, 10, 98] : List Byte).length ∧
    (readChar^[2] (NewLexer [97, 10, 98])).ch ≠ 10 ∧
    (readChar^[2] (NewLexer [97, 10, 98])).position = 2 ∧
    (readChar^[2] (NewLexer [97, 10, 98])).ch = 98 ∧
    (readChar^[2] (NewLexer [97, 10, 98])).line = 2 ∧
    (readChar^[2] (NewLexer [97, 10, 98])).column = 1 := by
  obtain ⟨h1, -, h3⟩ := (C13_cursor_position [97, 10, 98]).1 2 (by decide)
  have h4 := h3 (by decide)
  exact ⟨by decide, by decide, h1, rfl, h4.1, h4.2⟩

/-! ## Comments as trivia -/

/-- The first closing marker after a body without `*/` is the one that follows it. -/
theorem noClose_split_unique :
    ∀ (s s1 r : List Byte), NoClose s → s ++ [42, 47] = s1 ++ [42, 47] ++ r → r = [] := by
  intro s
  induction s with
  | nil =>
    intro s1 r _ h
    have := congrArg List.length h
    simp only [List.nil_append, List.length_cons, List.length_nil, List.length_append] at this
    exact List.eq_nil_of_length_eq_zero (by omega)
  | cons c s ih =>
    intro s1 r hn h
    cases s1 with
    | nil =>
      exfalso
      simp only [List.cons_append, List.nil_append, List.cons.injEq] at h
      obtain ⟨hc, h2⟩ := h
      refine hn.head ⟨hc, ?_⟩
      cases s with
      | nil =>
        simp only [List.nil_append, List.cons.injEq] at h2
        exact absurd h2.1 (by decide)
      | cons d s =>
        simp only [List.cons_append, List.cons.injEq] at h2
        exact h2.1
    | cons d s1 =>
      simp only [List.cons_append, List.cons.injEq] at h
      exact ih s1 r hn.tail h.2

theorem mem_of_headD_ne_zero {r : List Byte} {c : Byte} (h : r.headD 0 = c) (hc : c ≠ 0) :
    c ∈ r := by
  cases r with
  | nil => exact absurd h.symm hc
  | cons d r =>
    have : d = c := h
    rw [this]; exact List.mem_cons_self _ _

/-- The end of the first call of `NextToken` when the trivia-skipping prefix has stopped at
a zero byte with nothing stored and no message: `Analyze` returns at once. -/
theorem Analyze_of_skipTrivia_zero {l0 lb : Lexer} (hst : skipTrivia l0 = lb)
    (hsy : Synced lb) (hch : lb.ch = 0) :
    Analyze l0 = .ok (readChar lb) := by
  have hcl : classify lb = .ok (eofToken lb.line lb.column, readChar lb) := by
    rcases classify_spec hsy with ⟨-, he⟩ | ⟨tok, l2, w, -, hx⟩
    · exact he
    · exact absurd hch hx.ch_ne
  have hn : NextToken l0 = .ok (eofToken lb.line lb.column, readChar lb) := by
    unfold NextToken; rw [hst, hcl]
  have hf : loopFuel l0 = (loopFuel l0 - 1) + 1 := by unfold loopFuel; omega
  unfold Analyze
  rw [hf]
  exact analyzeLoop_eof hn _

/-- The trivia-skipping prefix of `NextToken` on a lexer at `/` followed by `/` or `*`, when
the comment ends at a zero byte: it stops right after the comment. -/
theorem skipTrivia_one_comment {l0 lb : Lexer} (hc0 : l0.ch = 47)
    (hsc : skipComment l0 = (true, lb)) (hch : lb.ch = 0) : skipTrivia l0 = lb := by
  have hw0 : skipWhitespace l0 = l0 := readWhile_of_not isSpace _ (by rw [hc0]; decide)
  have hwb : skipWhitespace lb = lb := readWhile_of_not isSpace _ (by rw [hch]; decide)
  unfold skipTrivia
  dsimp only
  rw [hw0, commentLoop_loop, hsc]
  dsimp only
  rw [hwb, commentLoop_loop,
    skipComment_false (fun hh => absurd (hch.symm.trans hh.1) (by decide))]

/-- C14. A terminated block comment is pure trivia. For every byte string `s` that contains
neither `*/` nor a NUL byte, analysing `/*`, `s`, `*/` returns, stores zero tokens and
produces zero error messages, with the whole input consumed (also when `s` ends in `*` or
contains `/` or `/*`). -/
theorem C14_closed_block_comment (s : List Byte) (h : ¬ ([42, 47] : List Byte) <:+: s)
    (hz : ∀ b ∈ s, b ≠ 0) :
    ∃ l, Analyze (NewLexer (47 :: 42 :: (s ++ [42, 47]))) = .ok l ∧ l.tokens = [] ∧
      l.errors = [] ∧ l.position ≥ (47 :: 42 :: (s ++ [42, 47])).length := by
  have hs0 := synced_NewLexer (47 :: 42 :: (s ++ [42, 47]))
  have hr0 := rest_NewLexer (47 :: 42 :: (s ++ [42, 47]))
  have hc0 : (NewLexer (47 :: 42 :: (s ++ [42, 47]))).ch = 47 := hs0.ch_cons hr0
  have hp0 : peekChar (NewLexer (47 :: 42 :: (s ++ [42, 47]))) = 42 := by
    rw [hs0.peek, hr0]; rfl
  have ht0 : (NewLexer (47 :: 42 :: (s ++ [42, 47]))).tokens = [] := NewLexer_tokens _
  have hee : (NewLexer (47 :: 42 :: (s ++ [42, 47]))).errors = [] := NewLexer_errors _
  have hpos0 : (NewLexer (47 :: 42 :: (s ++ [42, 47]))).position = 0 := NewLexer_position _
  have hin0 : (NewLexer (47 :: 42 :: (s ++ [42, 47]))).input = 47 :: 42 :: (s ++ [42, 47]) :=
    NewLexer_input _
  generalize NewLexer (47 :: 42 :: (s ++ [42, 47])) = l0 at hs0 hr0 hc0 hp0 ht0 hee hpos0 hin0 ⊢
  have h2 := reads_two hs0 hc0 hp0 (by decide) (by decide)
  have hr2 : rest (readChar (readChar l0)) = s ++ [42, 47] := by
    have := h2.split
    rw [hr0] at this
    simpa using this.symm
  have hsc : skipComment l0 = (true, blockLoop (loopFuel (readChar (readChar l0)))
      (readChar (readChar l0))) := by
    simp [skipComment, hc0, hp0]
  have he2 : (readChar (readChar l0)).errors = [] := by
    rw [readChar_errors, readChar_errors, hee]
  have hnz : ∀ b ∈ s ++ [42, 47], b ≠ (0 : Byte) := by
    intro b hb
    rcases List.mem_append.mp hb with hb | hb
    · exact hz b hb
    · intro h0; rw [h0] at hb; revert hb; decide
  rcases blockLoop_reads (loopFuel (readChar (readChar l0))) (readChar (readChar l0))
    h2.synced (rest_length_le_fuel h2.synced) with
    ⟨s1, -, -, r1, herr⟩ | ⟨s1, hn1, -, r1, hch, -⟩
  · generalize blockLoop (loopFuel (readChar (readChar l0))) (readChar (readChar l0)) = lb
      at hsc r1 herr
    have hsp := r1.split
    rw [hr2] at hsp
    have hrb : rest lb = [] := noClose_split_unique s s1 (rest lb) h hsp
    have hch : lb.ch = 0 := r1.synced.ch_nil hrb
    have hst := skipTrivia_one_comment hc0 hsc hch
    refine ⟨readChar lb, Analyze_of_skipTrivia_zero hst r1.synced hch, ?_, ?_, ?_⟩
    · rw [readChar_tokens, r1.tokens_eq, h2.tokens_eq, ht0]
    · rw [readChar_errors, herr, he2]
    · have hl := rest_length lb
      rw [hrb, r1.input_eq, h2.input_eq] at hl
      simp only [List.length_nil] at hl
      rw [readChar_position, r1.synced.1, ← hin0]
      omega
  · exfalso
    have hsp := r1.split
    rw [hr2] at hsp
    have hrb : rest (blockLoop (loopFuel (readChar (readChar l0))) (readChar (readChar l0)))
        = [] := by
      cases hrr : rest (blockLoop (loopFuel (readChar (readChar l0)))
          (readChar (readChar l0))) with
      | nil => rfl
      | cons c r =>
        exfalso
        have hc : c = 0 := (r1.synced.ch_cons hrr).symm.trans hch
        refine hnz c ?_ hc
        rw [hsp, hrr]
        simp
    rw [hrb, List.append_nil] at hsp
    apply hn1
    rw [← hsp]
    exact ⟨s, [], by simp⟩

/-- C14 (witness). The comment with body `a*b/ /*c*` (it ends in `*` and holds `/` and
`/*`) is pure trivia. -/
theorem C14_closed_block_comment_witness :
    (¬ ([42, 47] : List Byte) <:+: ascii "a*b/ /*c*") ∧ (∀ b ∈ ascii "a*b/ /*c*", b ≠ 0) ∧
    ∃ l, Analyze (NewLexer (ascii "/*a*b/ /*c**/")) = .ok l ∧ l.tokens = [] ∧
      l.errors = [] ∧ l.position ≥ (ascii "/*a*b/ /*c**/").length :=
  ⟨by decide, by decide, C14_closed_block_comment (ascii "a*b/ /*c*") (by decide) (by decide)⟩

/-- What `skipComment` does at `//`, on every lexer state: it returns `true` after reading
the two slashes and a body without newline and without zero byte, and stops on a newline or
on a zero byte, which it does not read. -/
theorem skipComment_line (l : Lexer) (h : l.ch = 47) (hp : peekChar l = 47) :
    (skipComment l).1 = true ∧ Synced (skipComment l).2 ∧
      ((skipComment l).2.ch = 10 ∨ (skipComment l).2.ch = 0) ∧
      (skipComment l).2.errors = l.errors ∧ (skipComment l).2.tokens = l.tokens ∧
      ∃ body, (∀ b ∈ body, b ≠ 10 ∧ b ≠ 0) ∧
        Reads (readChar (readChar l)) (skipComment l).2 body := by
  have hw : skipComment l = (true, readWhile inLineComment
      (loopFuel (readChar (readChar l))) (readChar (readChar l))) := by
    simp [skipComment, h, hp]
  have h2 : Synced (readChar (readChar l)) := synced_readChar _
  obtain ⟨r1, r2, r3⟩ := readWhile_reads inLineComment (by decide)
    (loopFuel (readChar (readChar l))) (readChar (readChar l)) h2
    (by have := rest_length_le_fuel h2; omega)
  rw [hw]
  dsimp only
  refine ⟨rfl, r1.synced, ?_, by rw [r2]; simp, by rw [r1.tokens_eq]; simp, _, ?_, r1⟩
  · generalize (readWhile inLineComment (loopFuel (readChar (readChar l)))
      (readChar (readChar l))).ch = c at r3
    revert c
    decide
  · intro b hb
    have := List.mem_takeWhile_imp hb
    revert this
    generalize b = c
    revert c
    decide

/-- C15. A line comment is pure trivia ending before the newline. For every byte string `s`
without newline, analysing `//` followed by `s` returns, stores zero tokens and produces
zero error messages. On every lexer at `//`, `skipComment` returns `true` after reading the
two slashes and a body without newline, and leaves as current character either the
terminating newline, which it has not read, or the end-of-input sentinel. -/
theorem C15_line_comment :
    (∀ s : List Byte, (∀ b ∈ s, b ≠ 10) →
      ∃ l, Analyze (NewLexer (47 :: 47 :: s)) = .ok l ∧ l.tokens = [] ∧ l.errors = []) ∧
    (∀ l : Lexer, l.ch = 47 → peekChar l = 47 →
      (skipComment l).1 = true ∧
      ((skipComment l).2.ch = 10 ∨ (skipComment l).2.ch = 0) ∧
      (skipComment l).2.ch = (rest (skipComment l).2).headD 0 ∧
      (skipComment l).2.errors = l.errors ∧
      ∃ body, (∀ b ∈ body, b ≠ 10) ∧
        rest (readChar (readChar l)) = body ++ rest (skipComment l).2 ∧
        (skipComment l).2.position = l.readPosition + 1 + body.length) := by
  constructor
  · intro s hs
    have hs0 := synced_NewLexer (47 :: 47 :: s)
    have hr0 := rest_NewLexer (47 :: 47 :: s)
    have hc0 : (NewLexer (47 :: 47 :: s)).ch = 47 := hs0.ch_cons hr0
    have hp0 : peekChar (NewLexer (47 :: 47 :: s)) = 47 := by rw [hs0.peek, hr0]; rfl
    have ht0 : (NewLexer (47 :: 47 :: s)).tokens = [] := NewLexer_tokens _
    have hee : (NewLexer (47 :: 47 :: s)).errors = [] := NewLexer_errors _
    generalize NewLexer (47 :: 47 :: s) = l0 at hs0 hr0 hc0 hp0 ht0 hee ⊢
    obtain ⟨k1, k2, k3, k4, k5, body, -, k7⟩ := skipComment_line l0 hc0 hp0
    have h2 := reads_two hs0 hc0 hp0 (by decide) (by decide)
    have hr2 : rest (readChar (readChar l0)) = s := by
      have := h2.split
      rw [hr0] at this
      simpa using this.symm
    have hsc : skipComment l0 = (true, (skipComment l0).2) := Prod.ext k1 rfl
    generalize (skipComment l0).2 = lc at k2 k3 k4 k5 k7 hsc
    have hch : lc.ch = 0 := by
      rcases k3 with h10 | h0
      · exfalso
        have hm : (10 : Byte) ∈ rest lc :=
          mem_of_headD_ne_zero (k2.2.symm.trans h10) (by decide)
        have hsp := k7.split
        rw [hr2] at hsp
        exact hs 10 (by rw [hsp]; exact List.mem_append_right _ hm) rfl
      · exact h0
    have hst := skipTrivia_one_comment hc0 hsc hch
    exact ⟨readChar lc, Analyze_of_skipTrivia_zero hst k2 hch,
      by rw [readChar_tokens, k5, ht0], by rw [readChar_errors, k4, hee]⟩
  · intro l h hp
    obtain ⟨k1, k2, k3, k4, -, body, k6, k7⟩ := skipComment_line l h hp
    refine ⟨k1, k3, k2.2, k4, body, fun b hb => (k6 b hb).1, k7.split, ?_⟩
    rw [k7.position_eq (synced_readChar _), readChar_position, readChar_readPosition]

/-- C15 (witness). The line comment of the input `// c`, newline, `x`: `skipComment` stops
on the newline at offset 4. -/
theorem C15_line_comment_witness :
    (NewLexer [47, 47, 32, 99, 10, 120]).ch = 47 ∧
    peekChar (NewLexer [47, 47, 32, 99, 10, 120]) = 47 ∧
    (skipComment (NewLexer [47, 47, 32, 99, 10, 120])).1 = true ∧
    (skipComment (NewLexer [47, 47, 32, 99, 10, 120])).2.ch = 10 ∧
    (skipComment (NewLexer [47, 47, 32, 99, 10, 120])).2.position = 4 ∧
    (∀ b ∈ ascii " c", b ≠ 10) ∧
    ∃ l, Analyze (NewLexer (47 :: 47 :: ascii " c")) = .ok l ∧ l.tokens = [] ∧
      l.errors = [] := by
  have h := (C15_line_comment.2 (NewLexer [47, 47, 32, 99, 10, 120]) rfl rfl).1
  exact ⟨rfl, rfl, h, rfl, rfl, by decide, C15_line_comment.1 (ascii " c") (by decide)⟩

theorem unexpectedMsg_slash : unexpectedMsg 47 = "Неожиданный символ '/'" := by decide

/-- C16. A `/` that does not open a comment is not trivia. For every lexer whose current
character is `/` and whose next character is neither `/` nor `*` (also the zero that
`peekChar` returns when `/` is the last byte of the input), `skipComment` returns `false`
and leaves the lexer unchanged, and `NextToken` returns an Error token with Value `/` at the
line and column of that `/`, appends the one message
`Неожиданный символ '/' (строка L, столбец C)` and calls `readChar` once. The input `/`
yields one Error token `/` at (1,1) and one message. -/
theorem C16_lone_slash :
    (∀ l : Lexer, l.ch = 47 → peekChar l ≠ 47 → peekChar l ≠ 42 →
      skipComment l = (false, l) ∧
      ∃ tok l2, NextToken l = .ok (tok, l2) ∧
        tok = ⟨TokError, [47], l.line, l.column, "ОШИБКА"⟩ ∧
        l2.errors = l.errors ++ [errorMsg "Неожиданный символ '/'" l.line l.column] ∧
        l2 = readChar { l with errors := l2.errors } ∧
        l2.position = l.readPosition ∧ l2.readPosition = l.readPosition + 1) ∧
    (∃ l, Analyze (NewLexer (ascii "/")) = .ok l ∧
      l.tokens = [⟨TokError, ascii "/", 1, 1, "ОШИБКА"⟩] ∧
      l.errors = ["Неожиданный символ '/' (строка 1, столбец 1)"]) := by
  refine ⟨?_, ⟨_, rfl, rfl, rfl⟩⟩
  intro l h h1 h2
  have hno : ¬ (l.ch = 47 ∧ (peekChar l = 47 ∨ peekChar l = 42)) := by
    rintro ⟨-, hh | hh⟩
    · exact h1 hh
    · exact h2 hh
  have hst : skipTrivia l = l := skipTrivia_eq_self (by rw [h]; decide) hno
  have hcl := classify_unexpected l (by rw [h]; decide) (by rw [h]; decide)
    (by rw [h]; decide) (by rw [h]; decide) (by rw [h]; decide) (by rw [h]; decide)
    (by rw [h]; decide) (by rw [h]; decide)
  have hv : byteToString l.ch = [47] := by rw [h]; rfl
  have hm : unexpectedMsg l.ch = "Неожиданный символ '/'" := by
    rw [h]; exact unexpectedMsg_slash
  rw [hv, hm] at hcl
  have hn : NextToken l = classify l := by unfold NextToken; rw [hst]
  refine ⟨skipComment_false hno, _, _, hn.trans hcl, rfl, ?_, ?_, ?_, ?_⟩
  · rw [readChar_errors]
  · rw [readChar_errors]
  · rw [readChar_position]
  · rw [readChar_readPosition]

/-- C16 (witness). The rule at the `/` of the input `/ x` and at the `/` that ends the
input `/`. -/
theorem C16_lone_slash_witness :
    ((NewLexer (ascii "/ x")).ch = 47 ∧ peekChar (NewLexer (ascii "/ x")) ≠ 47 ∧
      peekChar (NewLexer (ascii "/ x")) ≠ 42 ∧
      skipComment (NewLexer (ascii "/ x")) = (false, NewLexer (ascii "/ x")) ∧
      ∃ tok l2, NextToken (NewLexer (ascii "/ x")) = .ok (tok, l2) ∧
        tok = ⟨TokError, [47], 1, 1, "ОШИБКА"⟩ ∧ l2.position = 1) ∧
    ((NewLexer (ascii "/")).ch = 47 ∧ peekChar (NewLexer (ascii "/")) = 0 ∧
      ∃ tok l2, NextToken (NewLexer (ascii "/")) = .ok (tok, l2) ∧
        tok = ⟨TokError, [47], 1, 1, "ОШИБКА"⟩ ∧ l2.position = 1) := by
  obtain ⟨a1, tok, l2, a2, a3, -, -, a4, -⟩ :=
    C16_lone_slash.1 (NewLexer (ascii "/ x")) rfl (by decide) (by decide)
  obtain ⟨-, tok', l2', b2, b3, -, -, b4, -⟩ :=
    C16_lone_slash.1 (NewLexer (ascii "/")) rfl (by decide) (by decide)
  exact ⟨⟨rfl, by decide, by decide, a1, tok, l2, a2, a3, a4⟩,
    ⟨rfl, rfl, tok', l2', b2, b3, b4⟩⟩

/-- C17. Display labels. `getTokenTypeName` returns a non-empty label for each of the
thirteen declared token kinds. For every input, `Analyze` returns and every stored token
has `TypeStr = getTokenTypeName(Type)`, a non-empty string. The label depends on the kind
only, on every path: the token that `NextToken` returns on a consistent cursor (identifier
path, common path, end of input) and the token that `makeError` builds both carry the label
of their kind. -/
theorem C17_display_labels :
    (∀ k : TokenType, getTokenTypeName k ≠ "") ∧
    (∀ input : List Byte, ∃ l, Analyze (NewLexer input) = .ok l ∧
      ∀ t ∈ l.tokens, t.TypeStr = getTokenTypeName t.Typ ∧ t.TypeStr ≠ "") ∧
    (∀ l : Lexer, Synced l → ∃ tok l2, NextToken l = .ok (tok, l2) ∧
      tok.TypeStr = getTokenTypeName tok.Typ) ∧
    (∀ (l : Lexer) (msg : String), (makeError l msg).1.Typ = TokError ∧
      (makeError l msg).1.TypeStr = getTokenTypeName TokError) := by
  have hne : ∀ k : TokenType, getTokenTypeName k ≠ "" := by
    intro k
    cases k <;> decide
  refine ⟨hne, ?_, ?_, fun l msg => ⟨rfl, rfl⟩⟩
  · intro input
    obtain ⟨l, hsc, ha, -⟩ := Analyze_scan input
    refine ⟨l, ha, ?_⟩
    refine hsc.tokens_forall (fun t => t.TypeStr = getTokenTypeName t.Typ ∧ t.TypeStr ≠ "")
      ?_ (by simp)
    intro l tok l2 w hx
    exact ⟨hx.typeStr, by rw [hx.typeStr]; exact hne _⟩
  · intro l hs
    obtain ⟨-, ⟨-, he⟩ | ⟨tok, l2, w, he, hx⟩⟩ := NextToken_spec hs
    · exact ⟨_, _, he, rfl⟩
    · exact ⟨tok, l2, he, hx.typeStr⟩

/-- C17 (witness). The label of the token returned at the input `and`. -/
theorem C17_display_labels_witness :
    Synced (NewLexer (ascii "and")) ∧
    ∃ tok l2, NextToken (NewLexer (ascii "and")) = .ok (tok, l2) ∧
      tok.TypeStr = getTokenTypeName tok.Typ :=
  ⟨synced_NewLexer _, C17_display_labels.2.2.1 (NewLexer (ascii "and")) (synced_NewLexer _)⟩

/-! ## Error messages and Error tokens -/

theorem errorMsg_head (c : Byte) (a b : Nat) :
    (errorMsg (unexpectedMsg c) a b).data.take 3 = ['Н', 'е', 'о'] := rfl

theorem unterminatedMsg_head (a b : Nat) :
    (unterminatedMsg a b).data.take 3 = ['Н', 'е', 'з'] := rfl

/-- An unexpected-character message is never an unterminated-comment message. -/
theorem errorMsg_ne_unterminatedMsg (c : Byte) (a b ln col : Nat) :
    errorMsg (unexpectedMsg c) a b ≠ unterminatedMsg ln col := by
  intro h
  have h2 := congrArg (fun s => s.data.take 3) h
  simp only [errorMsg_head, unterminatedMsg_head] at h2
  revert h2
  decide

theorem Lexed.error_cases {l l2 : Lexer} {tok : Token} {w : List Byte}
    (h : Lexed l tok l2 w) :
    (tok.Typ = TokError ∧
      l2.errors = l.errors ++ [errorMsg (unexpectedMsg l.ch) l.line l.column]) ∨
    (tok.Typ ≠ TokError ∧ l2.errors = l.errors) := by
  rcases h.kind with ⟨h1, -, -, -, h5⟩ | ⟨-, h2, -, -, h5⟩ | ⟨-, -, h3, h4⟩
  · exact Or.inl ⟨h1, h5⟩
  · right
    refine ⟨?_, h5⟩
    rw [h2]
    have := lookupKeyword_kind tok.Value
    unfold identRuleKind at this
    rcases this with h | h | h | h | h <;> simp [h]
  · right
    refine ⟨?_, h3⟩
    rcases h4 with h | h | h | h | h <;> simp [h]

theorem errorCount_cons (tok : Token) (toks : List Token) :
    errorCount (tok :: toks) =
      if tok.Typ = TokError then errorCount toks + 1 else errorCount toks := by
  unfold errorCount
  by_cases h : tok.Typ = TokError
  · simp [h]
  · simp [h]

theorem Scan.messages {l l3 : Lexer} (h : Scan l l3) :
    ∃ toks front tail, l3.tokens = l.tokens ++ toks ∧
      l3.errors = l.errors ++ (front ++ tail) ∧
      front.length = errorCount toks ∧
      (∀ m ∈ front, ∃ c ln col, m = errorMsg (unexpectedMsg c) ln col) ∧
      (tail = [] ∨ ∃ ln col, tail = [unterminatedMsg ln col]) ∧
      (tail ≠ [] → ∃ pre s post, rest l = pre ++ 47 :: 42 :: (s ++ post) ∧ NoClose s ∧
        post.headD 0 = 0) := by
  induction h with
  | @eof l _ ht h0 _ =>
    rcases ht with ⟨w, -, hr, he⟩ | ⟨w, ⟨t1, s, -, hs2, hs3⟩, hr, hc, he⟩
    · refine ⟨[], [], [], by rw [readChar_tokens, hr.tokens_eq]; simp,
        by rw [readChar_errors, he]; simp, rfl, by simp, Or.inl rfl, fun hh => absurd rfl hh⟩
    · refine ⟨[], [], [unterminatedMsg (skipTrivia l).line (skipTrivia l).column],
        by rw [readChar_tokens, hr.tokens_eq]; simp,
        by rw [readChar_errors, he]; simp, rfl, by simp, Or.inr ⟨_, _, rfl⟩, fun _ => ?_⟩
      refine ⟨t1, s, rest (skipTrivia l), ?_, hs2, ?_⟩
      · rw [hr.split, hs3]; simp
      · rw [← hr.synced.2]; exact hc
  | @tok l l2 l3 tok w _ ht hx _ _ ih =>
    obtain ⟨t, -, ht2, hte⟩ := ht.not_open hx.ch_ne
    obtain ⟨toks, front, tail, h1, h2, h3, h4, h5, h6⟩ := ih
    have htk : l3.tokens = l.tokens ++ (tok :: toks) := by
      rw [h1]
      show (l2.tokens ++ [tok]) ++ toks = _
      rw [hx.reads.tokens_eq, ht2.tokens_eq]; simp
    have h2b : l3.errors = l2.errors ++ (front ++ tail) := h2
    have hpre : tail ≠ [] → ∃ pre s post, rest l = pre ++ 47 :: 42 :: (s ++ post) ∧
        NoClose s ∧ post.headD 0 = 0 := by
      intro hne
      obtain ⟨pre, s, post, e1, e2, e3⟩ := h6 hne
      have e1b : rest l2 = pre ++ 47 :: 42 :: (s ++ post) := e1
      refine ⟨t ++ w ++ pre, s, post, ?_, e2, e3⟩
      rw [ht2.split, hx.reads.split, e1b]; simp
    rcases hx.error_cases with ⟨k1, k2⟩ | ⟨k1, k2⟩
    · refine ⟨tok :: toks, errorMsg (unexpectedMsg (skipTrivia l).ch) (skipTrivia l).line
          (skipTrivia l).column :: front, tail, htk, ?_, ?_, ?_, h5, hpre⟩
      · rw [h2b, k2, hte]; simp
      · rw [errorCount_cons, if_pos k1, List.length_cons, h3]
      · intro m hm
        rcases List.mem_cons.mp hm with hm | hm
        · exact ⟨_, _, _, hm⟩
        · exact h4 m hm
    · refine ⟨tok :: toks, front, tail, htk, ?_, ?_, h4, h5, hpre⟩
      · rw [h2b, k2, hte]
      · rw [errorCount_cons, if_neg k1, h3]

/-- C18. Error messages versus Error tokens. For every input, `Analyze` returns and its
error list is one unexpected-character message for each stored token of kind Error (as many
messages as such tokens), followed by at most one unterminated-comment message. So the
number of error messages equals the number of stored Error tokens or exceeds it by exactly
one; it exceeds it exactly when an unterminated-comment message was produced, and then the
input reaches its end or a zero byte inside a block comment whose body has no `*/`. Any
Error token implies a non-empty error list, while the input `/* x` has one error message and
no Error token. -/
theorem C18_errors_and_error_tokens :
    (∀ input : List Byte, ∃ l front tail, Analyze (NewLexer input) = .ok l ∧
      l.errors = front ++ tail ∧ front.length = errorCount l.tokens ∧
      (∀ m ∈ front, ∃ c ln col, m = errorMsg (unexpectedMsg c) ln col) ∧
      (tail = [] ∨ ∃ ln col, tail = [unterminatedMsg ln col]) ∧
      (l.errors.length = errorCount l.tokens ∨
        l.errors.length = errorCount l.tokens + 1) ∧
      (l.errors.length = errorCount l.tokens + 1 ↔
        ∃ ln col, unterminatedMsg ln col ∈ l.errors) ∧
      (l.errors.length = errorCount l.tokens + 1 →
        ∃ pre s post, input = pre ++ 47 :: 42 :: (s ++ post) ∧
          ¬ ([42, 47] : List Byte) <:+: s ∧ post.headD 0 = 0) ∧
      (0 < errorCount l.tokens → l.errors ≠ [])) ∧
    (∃ l, Analyze (NewLexer (ascii "/* x")) = .ok l ∧ l.errors.length = 1 ∧
      errorCount l.tokens = 0 ∧ l.errors ≠ []) := by
  refine ⟨?_, ⟨_, rfl, rfl, rfl, by decide⟩⟩
  intro input
  obtain ⟨l, hsc, ha, -⟩ := Analyze_scan input
  obtain ⟨toks, front, tail, h1, h2, h3, h4, h5, h6⟩ := hsc.messages
  rw [NewLexer_tokens, List.nil_append] at h1
  rw [NewLexer_errors, List.nil_append] at h2
  rw [rest_NewLexer] at h6
  rw [← h1] at h3
  have hlen : l.errors.length = errorCount l.tokens + tail.length := by
    rw [h2, List.length_append, h3]
  refine ⟨l, front, tail, ha, h2, h3, h4, h5, ?_, ?_, ?_, ?_⟩
  · rcases h5 with h | ⟨ln, col, h⟩
    · left; rw [hlen, h]; rfl
    · right; rw [hlen, h]; rfl
  · constructor
    · intro hh
      rcases h5 with h | ⟨ln, col, h⟩
      · rw [hlen, h] at hh; simp at hh
      · exact ⟨ln, col, by rw [h2, h]; simp⟩
    · rintro ⟨ln, col, hm⟩
      rcases h5 with h | ⟨ln2, col2, h⟩
      · exfalso
        rw [h2, h, List.append_nil] at hm
        obtain ⟨c, a, b, e⟩ := h4 _ hm
        exact errorMsg_ne_unterminatedMsg c a b ln col e.symm
      · rw [hlen, h]; rfl
  · intro hh
    apply h6
    intro ht
    rw [hlen, ht] at hh
    simp at hh
  · intro hpos he
    rw [he] at hlen
    simp only [List.length_nil] at hlen
    omega

/-- C18 (witness). On the input `:` one Error token is stored, so the error list is not
empty. -/
theorem C18_errors_and_error_tokens_witness :
    ∃ l, Analyze (NewLexer (ascii ":")) = .ok l ∧ 0 < errorCount l.tokens ∧
      l.errors ≠ [] := by
  obtain ⟨l, -, -, ha, -, -, -, -, -, -, -, h⟩ :=
    C18_errors_and_error_tokens.1 (ascii ":")
  have h3 : Analyze (NewLexer (ascii ":")) =
      .ok (readChar (readChar { NewLexer (ascii ":") with
        tokens := [⟨TokError, [58], 1, 1, "ОШИБКА"⟩],
        errors := ["Неожиданный символ ':' (строка 1, столбец 1)"] })) := rfl
  have hpos : 0 < errorCount l.tokens := by
    rw [h3] at ha
    cases ha
    decide
  exact ⟨l, ha, hpos, h hpos⟩

/-! ## Source order of the stored tokens -/

theorem readChar_cursorLt (l : Lexer) : cursorLt l (readChar l) := by
  unfold cursorLt
  rcases readChar_line_column l with ⟨-, e2, -⟩ | ⟨-, e2, e3⟩
  · left; omega
  · right; omega

theorem iterate_readChar_cursor (l : Lexer) :
    ∀ k, cursorLe l (readChar^[k] l) ∧ (0 < k → cursorLt l (readChar^[k] l)) := by
  intro k
  induction k with
  | zero => exact ⟨Or.inr ⟨rfl, Nat.le_refl _⟩, fun h => absurd h (by decide)⟩
  | succ k ih =>
    have h1 := ih.1
    have h2 := readChar_cursorLt (readChar^[k] l)
    rw [Function.iterate_succ_apply']
    unfold cursorLe cursorLt at *
    constructor
    · omega
    · intro _; omega

theorem iterate_readChar_lineColOK (l : Lexer) (h : LineColOK l) :
    ∀ k, LineColOK (readChar^[k] l) := by
  intro k
  induction k with
  | zero => exact h
  | succ k ih =>
    rw [Function.iterate_succ_apply']
    unfold LineColOK at *
    rcases readChar_line_column (readChar^[k] l) with ⟨e1, e2, -⟩ | ⟨-, e2, e3⟩
    · exact ⟨by omega, fun hne => absurd e1 hne⟩
    · exact ⟨by omega, fun _ => by omega⟩

theorem Reads.cursor_le {a b : Lexer} {w : List Byte} (h : Reads a b w) :
    cursorLe a b ∧ (w ≠ [] → cursorLt a b) := by
  have hl := congrArg Lexer.line h.cursor
  have hc := congrArg Lexer.column h.cursor
  dsimp only at hl hc
  have := iterate_readChar_cursor a w.length
  unfold cursorLe cursorLt at *
  rw [hl, hc] at this
  exact ⟨this.1, fun hne => this.2 (List.length_pos.mpr hne)⟩

theorem Reads.lineColOK {a b : Lexer} {w : List Byte} (h : Reads a b w) (ha : LineColOK a) :
    LineColOK b := by
  have hl := congrArg Lexer.line h.cursor
  have hc := congrArg Lexer.column h.cursor
  have hh := congrArg Lexer.ch h.cursor
  dsimp only at hl hc hh
  have := iterate_readChar_lineColOK a ha w.length
  unfold LineColOK at *
  rw [hl, hc, hh] at this
  exact this

theorem TriviaRun.cursor_le_run {a b : Lexer} (h : TriviaRun a b) (ha : LineColOK a) :
    cursorLe a b ∧ LineColOK b := by
  rcases h with ⟨_, _, h, _⟩ | ⟨_, _, h, _⟩
  · exact ⟨h.cursor_le.1, h.lineColOK ha⟩
  · exact ⟨h.cursor_le.1, h.lineColOK ha⟩

theorem commentLoop_not_space :
    ∀ (n : Nat) (l : Lexer), Synced l → isSpace l.ch = false →
      isSpace (commentLoop n l).ch = false := by
  intro n
  induction n with
  | zero => intro l _ h; exact h
  | succ n ih =>
    intro l hs hsp
    have key := skipComment_reads hs
    unfold commentLoop
    generalize skipComment l = r at key ⊢
    obtain ⟨b, l1⟩ := r
    rcases key with ⟨he, -⟩ | ⟨hb, w, -, -, hw3, -⟩ | ⟨hb, s, -, -, hs3, -, -⟩
    · cases he; exact hsp
    · dsimp only at hb hw3
      subst hb
      dsimp only
      have hv := skipWhitespace_reads hw3.synced
      exact ih _ hv.1.synced hv.2.2
    · dsimp only at hb hs3
      subst hb
      dsimp only
      have hv := skipWhitespace_reads hs3.synced
      exact ih _ hv.1.synced hv.2.2

/-- After the trivia-skipping prefix of `NextToken` the current character is no whitespace
byte. -/
theorem skipTrivia_not_space {l : Lexer} (hs : Synced l) :
    isSpace (skipTrivia l).ch = false := by
  have hv := skipWhitespace_reads hs
  exact commentLoop_not_space _ _ hv.1.synced hv.2.2

theorem Scan.ordered {l l3 : Lexer} (h : Scan l l3) (hok : LineColOK l) :
    ∃ toks, l3.tokens = l.tokens ++ toks ∧
      (∀ t ∈ toks, 1 ≤ t.Line ∧ 1 ≤ t.Column) ∧ List.Chain' before toks ∧
      (∀ t ∈ toks.head?, l.line < t.Line ∨ (l.line = t.Line ∧ l.column ≤ t.Column)) := by
  induction h with
  | @eof l _ ht _ _ =>
    exact ⟨[], by rw [readChar_tokens, ht.run_tokens]; simp, by simp, List.chain'_nil,
      by simp⟩
  | @tok l l2 l3 tok w hs ht hx _ _ ih =>
    obtain ⟨hle, hok1⟩ := ht.cursor_le_run hok
    have hok2 : LineColOK l2 := hx.reads.lineColOK hok1
    have hlt := hx.reads.cursor_le.2 hx.nonempty
    obtain ⟨toks, h1, h2, h3, h4⟩ := ih hok2
    have hnl : (skipTrivia l).ch ≠ 10 := by
      intro h10
      have := skipTrivia_not_space hs
      rw [h10] at this
      revert this
      decide
    have hcol := hok1.2 hnl
    have hline := hok1.1
    refine ⟨tok :: toks, ?_, ?_, ?_, ?_⟩
    · rw [h1]
      show (l2.tokens ++ [tok]) ++ toks = _
      rw [hx.reads.tokens_eq, ht.run_tokens]; simp
    · intro t hm
      rcases List.mem_cons.mp hm with hm | hm
      · rw [hm, hx.line, hx.column]; exact ⟨hline, hcol⟩
      · exact h2 t hm
    · rw [List.chain'_cons']
      refine ⟨?_, h3⟩
      intro y hy
      have h5 := h4 y hy
      have h5b : l2.line < y.Line ∨ (l2.line = y.Line ∧ l2.column ≤ y.Column) := h5
      unfold before
      unfold cursorLt at hlt
      rw [hx.line, hx.column]
      omega
    · intro t hm
      simp only [List.head?_cons, Option.mem_def, Option.some.injEq] at hm
      rw [← hm, hx.line, hx.column]
      exact hle

theorem lineColOK_NewLexer (input : List Byte) : LineColOK (NewLexer input) := by
  unfold LineColOK NewLexer
  have h1 : (initLexer input).line = 1 := rfl
  rcases readChar_line_column (initLexer input) with ⟨e1, e2, -⟩ | ⟨-, e2, e3⟩
  · exact ⟨by omega, fun hne => absurd e1 hne⟩
  · exact ⟨by omega, fun _ => by omega⟩

/-- C19. Stored tokens are in strictly increasing source order with 1-based positions. For
every input, `Analyze` returns, every stored token has `Line >= 1` and `Column >= 1`, and
for every two consecutive stored tokens `t`, `u` the pair (`t.Line`, `t.Column`) is
strictly less than (`u.Line`, `u.Column`) in lexicographic order. -/
theorem C19_token_order (input : List Byte) :
    ∃ l, Analyze (NewLexer input) = .ok l ∧
      (∀ t ∈ l.tokens, 1 ≤ t.Line ∧ 1 ≤ t.Column) ∧
      List.Chain' before l.tokens ∧
      (∀ (i : Nat) (t u : Token), l.tokens[i]? = some t → l.tokens[i + 1]? = some u →
        t.Line < u.Line ∨ (t.Line = u.Line ∧ t.Column < u.Column)) := by
  obtain ⟨l, hsc, ha, -⟩ := Analyze_scan input
  obtain ⟨toks, h1, h2, h3, -⟩ := hsc.ordered (lineColOK_NewLexer input)
  rw [NewLexer_tokens, List.nil_append] at h1
  rw [← h1] at h2 h3
  refine ⟨l, ha, h2, h3, ?_⟩
  intro i t u ht hu
  have hi : i < l.tokens.length - 1 := by
    have := (List.getElem?_eq_some_iff.mp hu).1
    omega
  have := List.chain'_iff_get.mp h3 i hi
  have e1 : l.tokens.get ⟨i, by omega⟩ = t := by
    have := (List.getElem?_eq_some_iff.mp ht).2
    simpa using this
  have e2 : l.tokens.get ⟨i + 1, by omega⟩ = u := by
    have := (List.getElem?_eq_some_iff.mp hu).2
    simpa using this
  rw [e1, e2] at this
  exact this

/-! ## Round trip on ASCII text -/

theorem tokenSpans_setTokens (ts : List Token) :
    ∀ (n : Nat) (l : Lexer), tokenSpans n (setTokens ts l) = tokenSpans n l := by
  intro n
  induction n with
  | zero => intro l; rfl
  | succ n ih =>
    intro l
    simp only [tokenSpans, NextToken_setTokens, skipTrivia_setTokens, setTokens_position]
    generalize NextToken l = r
    rcases r with e | ⟨tok, l1⟩
    · rfl
    · simp only [withTokens, ih, setTokens_position]

theorem Scan.spans {l l3 : Lexer} (h : Scan l l3)
    (hin : ∀ b ∈ l.input, b ≠ 0 ∧ (b.val < 128 ∨ isLetter b = true)) :
    ∃ toks, l3.tokens = l.tokens ++ toks ∧
      (tokenSpans toks.length l).map (fun x => x.1) = toks ∧
      ∀ x ∈ tokenSpans toks.length l, x.1.Value ≠ [] ∧ x.2.1 < x.2.2 ∧
        x.2.2 ≤ l.input.length ∧ x.1.Value = (l.input.drop x.2.1).take (x.2.2 - x.2.1) := by
  induction h with
  | @eof l _ ht _ _ =>
    exact ⟨[], by rw [readChar_tokens, ht.run_tokens]; simp, rfl, by simp [tokenSpans]⟩
  | @tok l l2 l3 tok w _ ht hx he _ ih =>
    have hi2 : l2.input = l.input := by rw [hx.reads.input_eq, ht.run_input]
    obtain ⟨toks, h1, h2, h3⟩ := ih (fun b hb => hin b (by rw [← hi2]; exact hb))
    have hset : ({ l2 with tokens := l2.tokens ++ [tok] } : Lexer) =
        setTokens (l2.tokens ++ [tok]) l2 := rfl
    rw [hset, tokenSpans_setTokens] at h2 h3
    have hv : tok.Value = w := hx.value_eq
      (hin _ (by rw [← ht.run_input]; exact ch_mem_input ht.synced hx.ch_ne)).2
    have hpos := hx.reads.position_eq ht.synced
    have hlen := hx.reads.rest_length_eq
    have hrl := rest_length (skipTrivia l)
    have hwpos := List.length_pos.mpr hx.nonempty
    have hsl : (l.input.drop (skipTrivia l).position).take w.length = w := by
      rw [← ht.run_input]
      exact take_of_split hx.reads.split
    have hunf : tokenSpans (toks.length + 1) l =
        (tok, (skipTrivia l).position, l2.position) :: tokenSpans toks.length l2 := by
      rw [tokenSpans, he]
    refine ⟨tok :: toks, ?_, ?_, ?_⟩
    · rw [h1]
      show (l2.tokens ++ [tok]) ++ toks = _
      rw [hx.reads.tokens_eq, ht.run_tokens]; simp
    · rw [List.length_cons, hunf, List.map_cons, h2]
    · rw [List.length_cons, hunf]
      intro x hm
      rcases List.mem_cons.mp hm with hm | hm
      · rw [hm]
        dsimp only
        rw [ht.run_input] at hrl
        refine ⟨by rw [hv]; exact hx.nonempty, by omega, by omega, ?_⟩
        rw [hv, hpos]
        have : (skipTrivia l).position + w.length - (skipTrivia l).position = w.length := by
          omega
        rw [this]
        exact hsl.symm
      · have := h3 x hm
        rw [setTokens_input, hi2] at this
        exact this

/-- C20. Round trip on ASCII text. For every input all of whose bytes are in the range
0x01..0x7F, `Analyze` returns and the input equals `t0 ++ v1 ++ t1 ++ ... ++ vn ++ tn` where
`v1 .. vn` are the `Value` fields of the stored tokens in order and each `ti` is a possibly
empty run of whitespace and comments (the last comment possibly unterminated). Each `vi` is
non-empty and is the exact substring of the input consumed for its token: the stored tokens
are the results of the first `n` calls of `NextToken`, and the call for a token moves the
cursor from an offset `p`, where its `switch` starts, to an offset `q` with
`p < q <= len(input)` and `Value = input[p:q]`. -/
theorem C20_ascii_round_trip (input : List Byte)
    (h : ∀ b ∈ input, b ≠ 0 ∧ b.val < 128) :
    ∃ l, Analyze (NewLexer input) = .ok l ∧
      Splits (l.tokens.map Token.Value) input ∧
      (∀ t ∈ l.tokens, t.Value ≠ []) ∧
      (tokenSpans l.tokens.length (NewLexer input)).map (fun x => x.1) = l.tokens ∧
      ∀ x ∈ tokenSpans l.tokens.length (NewLexer input), x.2.1 < x.2.2 ∧
        x.2.2 ≤ input.length ∧ x.1.Value = (input.drop x.2.1).take (x.2.2 - x.2.1) := by
  have hin : ∀ b ∈ (NewLexer input).input, b ≠ 0 ∧ (b.val < 128 ∨ isLetter b = true) := by
    rw [NewLexer_input]
    exact fun b hb => ⟨(h b hb).1, Or.inl (h b hb).2⟩
  obtain ⟨l, hsc, ha, -⟩ := Analyze_scan input
  obtain ⟨toks, h1, h2⟩ := hsc.splits hin
  obtain ⟨toks2, g1, g2, g3⟩ := hsc.spans hin
  rw [NewLexer_tokens, List.nil_append] at h1 g1
  rw [rest_NewLexer] at h2
  rw [NewLexer_input] at g3
  rw [← g1] at g2 g3
  refine ⟨l, ha, by rw [h1]; exact h2, ?_, g2, fun x hx => (g3 x hx).2⟩
  intro t ht
  rw [← g2] at ht
  obtain ⟨x, hx, rfl⟩ := List.mem_map.mp ht
  exact (g3 x hx).1

/-- C20 (witness). The round trip at the input `a := /*c*/ 1; // z`. -/
theorem C20_ascii_round_trip_witness :
    (∀ b ∈ ascii "a := /*c*/ 1; // z", b ≠ 0 ∧ b.val < 128) ∧
    ∃ l, Analyze (NewLexer (ascii "a := /*c*/ 1; // z")) = .ok l ∧
      Splits (l.tokens.map Token.Value) (ascii "a := /*c*/ 1; // z") ∧
      (∀ t ∈ l.tokens, t.Value ≠ []) := by
  obtain ⟨l, h1, h2, h3, -⟩ :=
    C20_ascii_round_trip (ascii "a := /*c*/ 1; // z") (by decide)
  exact ⟨by decide, l, h1, h2, h3⟩

end BoolLex
